import Mathlib

/-! # The web-connectivity result ledger (`TestKeys`)

A shallow embedding of `internal/experiment/webconnectivitylte/testkeys.go`.

Conventions of the embedding.

* A Go slice is a `List`; a nil slice and an empty slice are both `[]`.
* A slice of pointers to records (`[]*model.ArchivalNetworkEvent`, ...) is the
  list of the records pointed to: the embedding covers ledgers whose
  sequences hold records, not nil pointers.
* A pointer field that Go may leave nil (`*string`, `*bool`, `*TestKeysDoH`,
  an `error`, an `any`) is an `Option`.
* `float64` timestamps are rationals: every float64 that is not a NaN or an
  infinity is a rational number, and Go's `<` on such values is the order of
  the rationals. Timestamps are elapsed seconds, so NaN does not arise.
* Every method of `TestKeys` runs its whole body between `tk.mu.Lock()` and
  `tk.mu.Unlock()`. A call is therefore one atomic transition of the ledger,
  and a concurrent execution is some sequence of such transitions. The mutex
  itself carries no data and is not a field of the embedded record; the
  section on goroutines and the mutex models it and derives this.
-/

namespace WebConnectivityLTE

/-! ## Records declared outside the ledger's file -/

/-- Modelled from the spec: `model.ArchivalNetworkEvent`, declared in package
`model`. An observation carries a relative timestamp, an outcome and a
protocol-specific payload; the ledger reads only `T`. -/
structure ArchivalNetworkEvent where
  Operation : String
  Address : String
  Failure : Option String
  T : ℚ
  deriving DecidableEq

/-- Modelled from the spec: `model.ArchivalDNSLookupResult`, declared in
package `model`; one completed DNS lookup. -/
structure ArchivalDNSLookupResult where
  Hostname : String
  Answers : List String
  Failure : Option String
  T : ℚ
  deriving DecidableEq

/-- Modelled from the spec: `model.ArchivalHTTPRequestResult`, declared in
package `model`; one completed HTTP exchange. -/
structure ArchivalHTTPRequestResult where
  URL : String
  StatusCode : Int
  Failure : Option String
  T : ℚ
  deriving DecidableEq

/-- Modelled from the spec: `model.ArchivalTCPConnectResult`, declared in
package `model`; one completed TCP connect. -/
structure ArchivalTCPConnectResult where
  IP : String
  Port : Nat
  Failure : Option String
  T : ℚ
  deriving DecidableEq

/-- Modelled from the spec: `model.ArchivalTLSOrQUICHandshakeResult`, declared
in package `model`; one completed TLS or QUIC handshake. -/
structure ArchivalTLSOrQUICHandshakeResult where
  Address : String
  ServerName : String
  Failure : Option String
  T : ℚ
  deriving DecidableEq

/-- Modelled from the spec: `webconnectivity.ControlRequest`, declared in
package `webconnectivity`; the ledger stores it and never inspects it. -/
structure ControlRequest where
  HTTPRequest : String
  TCPConnect : List String
  deriving DecidableEq

/-- Modelled from the spec: `webconnectivity.ControlResponse`, the control
reference, declared in package `webconnectivity`; the ledger stores it and
never inspects it. -/
structure ControlResponse where
  DNSAddrs : List String
  HTTPStatusCode : Int
  HTTPBodyLength : Int
  HTTPTitle : String
  deriving DecidableEq

/-- Modelled from the spec: `model.OOAPIService`, declared in package
`model`; the test helper that worked. -/
structure OOAPIService where
  Address : String
  ServiceType : String
  deriving DecidableEq

/-- A non-nil Go `error` value, identified by its message. A Go `error`
variable is an `Option GoError`, `none` being the nil error. -/
structure GoError where
  msg : String
  deriving DecidableEq

/-- A non-nil Go `any` value as stored in `Blocking` and `Accessible`: a
string tag or a boolean. -/
inductive GoAny where
  | str (s : String)
  | bool (b : Bool)
  deriving DecidableEq

/-! ## Records declared in `testkeys.go` -/

/-- The `ConnPriorityLogEntry` record: an entry of `TestKeys.ConnPriorityLog`. -/
structure ConnPriorityLogEntry where
  Msg : String
  T : ℚ
  deriving DecidableEq

/-- The `DNSWhoamiInfoEntry` record. -/
structure DNSWhoamiInfoEntry where
  Address : String
  deriving DecidableEq

/-- The `DNSWhoamiInfo` record. The Go map `UDPv4` is an association list. -/
structure DNSWhoamiInfo where
  SystemV4 : List DNSWhoamiInfoEntry
  UDPv4 : List (String × List DNSWhoamiInfoEntry)
  deriving DecidableEq

/-- The `TestKeysDoH` record. -/
structure TestKeysDoH where
  NetworkEvents : List ArchivalNetworkEvent
  Queries : List ArchivalDNSLookupResult
  Requests : List ArchivalHTTPRequestResult
  TCPConnect : List ArchivalTCPConnectResult
  TLSHandshakes : List ArchivalTLSOrQUICHandshakeResult
  deriving DecidableEq

/-- The `TestKeysDo53` record. -/
structure TestKeysDo53 where
  NetworkEvents : List ArchivalNetworkEvent
  Queries : List ArchivalDNSLookupResult
  deriving DecidableEq

/-- The `TestKeys` record, field for field, without the mutex `mu`. -/
structure TestKeys where
  Agent : String
  ClientResolver : String
  Retries : Option Int
  SOCKSProxy : Option String
  NetworkEvents : List ArchivalNetworkEvent
  DNSWoami : Option DNSWhoamiInfo
  DoH : Option TestKeysDoH
  Do53 : Option TestKeysDo53
  DNSDuplicateResponses : List ArchivalDNSLookupResult
  Queries : List ArchivalDNSLookupResult
  Requests : List ArchivalHTTPRequestResult
  TCPConnect : List ArchivalTCPConnectResult
  TLSHandshakes : List ArchivalTLSOrQUICHandshakeResult
  ControlRequest : Option ControlRequest
  Control : Option ControlResponse
  ConnPriorityLog : List ConnPriorityLogEntry
  ControlFailure : Option String
  DNSFlags : Int
  DNSExperimentFailure : Option String
  DNSConsistency : String
  HTTPExperimentFailure : Option String
  BlockingFlags : Int
  NullNullFlags : Int
  BodyLengthMatch : Option Bool
  HeadersMatch : Option Bool
  StatusCodeMatch : Option Bool
  TitleMatch : Option Bool
  Blocking : Option GoAny
  Accessible : Option GoAny
  fundamentalFailure : Option GoError
  testHelper : Option OOAPIService
  deriving DecidableEq

/-! ## Code the ledger calls that lives in other files -/

/-- Modelled from the spec: the classification result that `analysisToplevel`
(a method of `TestKeys` defined in another file of the package) derives from
the ledger: the DNS-consistency verdict, three bitmasks, four optional
match booleans, a blocking reason and an accessibility value, together with
the two experiment-failure fields, which no operation of `testkeys.go`
writes. -/
structure Classification where
  DNSFlags : Int
  DNSExperimentFailure : Option String
  DNSConsistency : String
  HTTPExperimentFailure : Option String
  BlockingFlags : Int
  NullNullFlags : Int
  BodyLengthMatch : Option Bool
  HeadersMatch : Option Bool
  StatusCodeMatch : Option Bool
  TitleMatch : Option Bool
  Blocking : Option GoAny
  Accessible : Option GoAny
  deriving DecidableEq

/-- The functions that `testkeys.go` calls and that are defined elsewhere:
`tracex.NewFailure`, which turns an `error` into an optional failure string,
and the classifier behind `analysisToplevel`, a function of the ledger that
never fails. -/
structure Deps where
  NewFailure : Option GoError → Option String
  classify : TestKeys → Classification

/-- The ways in which a call of a Go method without result values can end:
it returns, leaving the ledger in some state, or it panics. -/
inductive CallEnd where
  | returns (after : TestKeys)
  | panics (msg : String)

/-- A Go callback `func(*α)`, by what it does with the pointer it is handed.
Handed a pointer to a record, it returns, leaving some record behind the
pointer, or it panics. Handed a nil pointer, it returns or it panics. The
pointer is passed by value, so a callback cannot make the field it came from
nil or point elsewhere. -/
structure Callback (α : Type) where
  onRecord : α → Except String α
  onNil : Except String Unit

/-- The callback that reads the record through its pointer and writes `f` of
it back, as in `func(p *T) { p.Queries = append(p.Queries, q) }`. Handed a
nil pointer it dereferences it, and the Go runtime panics. -/
def Callback.update {α : Type} (f : α → α) : Callback α where
  onRecord := fun record => Except.ok (f record)
  onNil := Except.error "runtime error: invalid memory address or nil pointer dereference"

/-- The callback that does the same behind a test for nil,
`func(p *T) { if p != nil { ... } }`, and so returns on a nil pointer. -/
def Callback.guarded {α : Type} (f : α → α) : Callback α where
  onRecord := fun record => Except.ok (f record)
  onNil := Except.ok ()

namespace TestKeys

/-! ## The operations of the ledger -/

/-- The method `AppendNetworkEvents`:
`tk.NetworkEvents = append(tk.NetworkEvents, v...)`. -/
def AppendNetworkEvents (tk : TestKeys) (v : List ArchivalNetworkEvent) : TestKeys :=
  { tk with NetworkEvents := tk.NetworkEvents ++ v }

/-- The method `AppendDNSLateReplies`:
`tk.DNSDuplicateResponses = append(tk.DNSDuplicateResponses, v...)`. -/
def AppendDNSLateReplies (tk : TestKeys) (v : List ArchivalDNSLookupResult) : TestKeys :=
  { tk with DNSDuplicateResponses := tk.DNSDuplicateResponses ++ v }

/-- The method `AppendQueries`: `tk.Queries = append(tk.Queries, v...)`. -/
def AppendQueries (tk : TestKeys) (v : List ArchivalDNSLookupResult) : TestKeys :=
  { tk with Queries := tk.Queries ++ v }

/-- The method `AppendRequests`: `tk.Requests = append(v, tk.Requests...)`,
at the front, the most recent request first. -/
def AppendRequests (tk : TestKeys) (v : List ArchivalHTTPRequestResult) : TestKeys :=
  { tk with Requests := v ++ tk.Requests }

/-- The method `AppendTCPConnectResults`:
`tk.TCPConnect = append(tk.TCPConnect, v...)`. -/
def AppendTCPConnectResults (tk : TestKeys) (v : List ArchivalTCPConnectResult) : TestKeys :=
  { tk with TCPConnect := tk.TCPConnect ++ v }

/-- The method `AppendTLSHandshakes`:
`tk.TLSHandshakes = append(tk.TLSHandshakes, v...)`. -/
def AppendTLSHandshakes (tk : TestKeys)
    (v : List ArchivalTLSOrQUICHandshakeResult) : TestKeys :=
  { tk with TLSHandshakes := tk.TLSHandshakes ++ v }

/-- The method `SetControlRequest`: `tk.ControlRequest = v`. -/
def SetControlRequest (tk : TestKeys) (v : Option WebConnectivityLTE.ControlRequest) :
    TestKeys :=
  { tk with ControlRequest := v }

/-- The method `SetControl`: `tk.Control = v`. -/
def SetControl (tk : TestKeys) (v : Option ControlResponse) : TestKeys :=
  { tk with Control := v }

/-- The method `SetControlFailure`:
`tk.ControlFailure = tracex.NewFailure(err)`. -/
def SetControlFailure (deps : Deps) (tk : TestKeys) (err : Option GoError) : TestKeys :=
  { tk with ControlFailure := deps.NewFailure err }

/-- The method `SetFundamentalFailure`: `tk.fundamentalFailure = err`. -/
def SetFundamentalFailure (tk : TestKeys) (err : Option GoError) : TestKeys :=
  { tk with fundamentalFailure := err }

/-- The method `WithTestKeysDoH`: `f(tk.DoH)`, between `Lock` and `Unlock`.
The callback is called once with the pointer held in `DoH`, whether or not
that pointer is nil. When it returns, the record behind the pointer is what
the callback left there and the call returns; when it panics, the call
panics, the mutex still locked. -/
def WithTestKeysDoH (tk : TestKeys) (f : Callback TestKeysDoH) : CallEnd :=
  match tk.DoH with
  | some doh =>
    match f.onRecord doh with
    | Except.ok doh1 => CallEnd.returns { tk with DoH := some doh1 }
    | Except.error msg => CallEnd.panics msg
  | none =>
    match f.onNil with
    | Except.ok _ => CallEnd.returns tk
    | Except.error msg => CallEnd.panics msg

/-- The method `WithTestKeysDo53`: `f(tk.Do53)`, as for `WithTestKeysDoH`. -/
def WithTestKeysDo53 (tk : TestKeys) (f : Callback TestKeysDo53) : CallEnd :=
  match tk.Do53 with
  | some do53 =>
    match f.onRecord do53 with
    | Except.ok do531 => CallEnd.returns { tk with Do53 := some do531 }
    | Except.error msg => CallEnd.panics msg
  | none =>
    match f.onNil with
    | Except.ok _ => CallEnd.returns tk
    | Except.error msg => CallEnd.panics msg

/-- The method `WithDNSWhoami`: `fun(tk.DNSWoami)`, as for `WithTestKeysDoH`. -/
def WithDNSWhoami (tk : TestKeys) (f : Callback DNSWhoamiInfo) : CallEnd :=
  match tk.DNSWoami with
  | some whoami =>
    match f.onRecord whoami with
    | Except.ok whoami1 => CallEnd.returns { tk with DNSWoami := some whoami1 }
    | Except.error msg => CallEnd.panics msg
  | none =>
    match f.onNil with
    | Except.ok _ => CallEnd.returns tk
    | Except.error msg => CallEnd.panics msg

/-- The method `SetClientResolver`: `tk.ClientResolver = value`. -/
def SetClientResolver (tk : TestKeys) (value : String) : TestKeys :=
  { tk with ClientResolver := value }

/-- The method `AppendConnPriorityLogEntry`:
`tk.ConnPriorityLog = append(tk.ConnPriorityLog, entry)`. -/
def AppendConnPriorityLogEntry (tk : TestKeys) (entry : ConnPriorityLogEntry) : TestKeys :=
  { tk with ConnPriorityLog := tk.ConnPriorityLog ++ [entry] }

/-- The method `setTestHelper`: `tk.testHelper = th`. -/
def setTestHelper (tk : TestKeys) (th : Option OOAPIService) : TestKeys :=
  { tk with testHelper := th }

/-- The method `getTestHelper`: returns `tk.testHelper`. -/
def getTestHelper (tk : TestKeys) : Option OOAPIService :=
  tk.testHelper

end TestKeys

/-- The function `NewTestKeys`. -/
def NewTestKeys : TestKeys where
  Agent := "redirect"
  ClientResolver := ""
  Retries := none
  SOCKSProxy := none
  NetworkEvents := []
  DNSWoami := some { SystemV4 := [], UDPv4 := [] }
  DoH := some
    { NetworkEvents := [], Queries := [], Requests := [], TCPConnect := [],
      TLSHandshakes := [] }
  Do53 := some { NetworkEvents := [], Queries := [] }
  DNSDuplicateResponses := []
  Queries := []
  Requests := []
  TCPConnect := []
  TLSHandshakes := []
  Control := none
  ConnPriorityLog := []
  ControlFailure := none
  DNSFlags := 0
  DNSExperimentFailure := none
  DNSConsistency := ""
  HTTPExperimentFailure := none
  BlockingFlags := 0
  NullNullFlags := 0
  BodyLengthMatch := none
  HeadersMatch := none
  StatusCodeMatch := none
  TitleMatch := none
  Blocking := none
  Accessible := none
  ControlRequest := none
  fundamentalFailure := none
  testHelper := none

/-! ## Finalization -/

/-- The inner loop of the insertion sort behind `sort.SliceStable`,
`for j := i; j > a && less(j, j-1); j-- { swap(j, j-1) }`: the element `x`,
which stands right after an already sorted run, is swapped leftwards while it
is less than its left neighbour. The run is given nearest neighbour first
(that is, reversed), and so is the result. -/
def sinkLeft {α : Type} (less : α → α → Bool) (x : α) : List α → List α
  | [] => [x]
  | y :: ys => if less x y then y :: sinkLeft less x ys else x :: y :: ys

/-- The outer loop of that insertion sort, `for i := a + 1; i < b; i++`: the
elements are taken from left to right and each one is sunk into the run made
of those before it. -/
def insertionSort {α : Type} (less : α → α → Bool) (data : List α) : List α :=
  (data.foldl (fun run x => sinkLeft less x run) []).reverse

/-- The function `sort.SliceStable` of Go's standard library, which sorts a
slice by `less` and keeps equal elements in their original order. Go hands
`less` two indices into the slice; here it receives the two elements. The
library runs the insertion sort above on slices of at most 20 elements, and
on longer ones it runs it on blocks of 20 elements and then merges the
blocks stably; the embedding runs the insertion sort on the whole slice.
The two agree: by `insertionSort_unique` below, a sorted list that keeps
equal elements in their input order is the list the insertion sort returns. -/
def SliceStable {α : Type} (x : List α) (less : α → α → Bool) : List α :=
  insertionSort less x

namespace TestKeys

/-- Modelled from the spec: the method `analysisToplevel`, defined in another
file of the package. The classifier is a function of the ledger that never
fails, and its result is stored in the classification fields of `tk`. -/
def analysisToplevel (deps : Deps) (tk : TestKeys) : TestKeys :=
  let c := deps.classify tk
  { tk with
    DNSFlags := c.DNSFlags
    DNSExperimentFailure := c.DNSExperimentFailure
    DNSConsistency := c.DNSConsistency
    HTTPExperimentFailure := c.HTTPExperimentFailure
    BlockingFlags := c.BlockingFlags
    NullNullFlags := c.NullNullFlags
    BodyLengthMatch := c.BodyLengthMatch
    HeadersMatch := c.HeadersMatch
    StatusCodeMatch := c.StatusCodeMatch
    TitleMatch := c.TitleMatch
    Blocking := c.Blocking
    Accessible := c.Accessible }

/-- The comparison that `Finalize` passes to `sort.SliceStable`:
`tk.NetworkEvents[i].T < tk.NetworkEvents[j].T`. -/
def lessT (a b : ArchivalNetworkEvent) : Bool :=
  decide (a.T < b.T)

/-- The method `Finalize`: `tk.analysisToplevel(logger)` and then
`sort.SliceStable(tk.NetworkEvents, ...)` by `T`. The logger only receives
messages and is left out. -/
def Finalize (deps : Deps) (tk : TestKeys) : TestKeys :=
  let tk1 := tk.analysisToplevel deps
  { tk1 with NetworkEvents := SliceStable tk1.NetworkEvents lessT }

end TestKeys

/-! ## A call of `Finalize`, statement by statement -/

/-- The message with which the Go runtime panics when a slice of length `n`
is indexed at `i`, outside it. -/
def indexOutOfRange (i n : Nat) : String :=
  "runtime error: index out of range [" ++ toString i ++ "] with length " ++ toString n

/-- The function that `reflect.Swapper` returns for a slice, which
`sort.SliceStable` uses to exchange the elements at two indices; it panics
on an index outside the slice. -/
def swapIndex {α : Type} (data : List α) (i j : Nat) : Except String (List α) :=
  match data[i]?, data[j]? with
  | some a, some b => Except.ok ((data.set i b).set j a)
  | _, _ => Except.error "reflect: slice index out of range"

/-- The inner loop of the insertion sort as the library runs it, on indices:
`for j := i; j > a && less(j, j-1); j-- { swap(j, j-1) }` with `a = 0`. The
comparison is handed the slice as it stands and two indices, and it may
panic. -/
def sinkLeftIndex {α : Type} (less : List α → Nat → Nat → Except String Bool) :
    Nat → List α → Except String (List α)
  | 0, data => Except.ok data
  | j + 1, data =>
    match less data (j + 1) j with
    | Except.error msg => Except.error msg
    | Except.ok false => Except.ok data
    | Except.ok true =>
      match swapIndex data (j + 1) j with
      | Except.error msg => Except.error msg
      | Except.ok swapped => sinkLeftIndex less j swapped

/-- The outer loop `for i := a + 1; i < b; i++`, with the number of rounds
left and the index `i`. -/
def insertionSortIndex.loop {α : Type} (less : List α → Nat → Nat → Except String Bool) :
    Nat → Nat → List α → Except String (List α)
  | 0, _, data => Except.ok data
  | rounds + 1, i, data =>
    match sinkLeftIndex less i data with
    | Except.error msg => Except.error msg
    | Except.ok sunk => insertionSortIndex.loop less rounds (i + 1) sunk

/-- The insertion sort on indices from `a = 0` to `b = len(data)`: the loop
runs for `i = 1, ..., len(data) - 1`. -/
def insertionSortIndex {α : Type} (less : List α → Nat → Nat → Except String Bool)
    (data : List α) : Except String (List α) :=
  insertionSortIndex.loop less (data.length - 1) 1 data

/-- A comparison of two indices made from a comparison of two elements: both
indices are looked up in the slice, the first one first, and an index outside
the slice is a panic. -/
def lessByIndex {α : Type} (lt : α → α → Bool) (data : List α) (i j : Nat) :
    Except String Bool :=
  match data[i]? with
  | none => Except.error (indexOutOfRange i data.length)
  | some a =>
    match data[j]? with
    | none => Except.error (indexOutOfRange j data.length)
    | some b => Except.ok (lt a b)

namespace TestKeys

/-- The closure that `Finalize` passes to `sort.SliceStable`,
`func(i, j int) bool { return tk.NetworkEvents[i].T < tk.NetworkEvents[j].T }`,
on the slice as it stands when the closure is called. -/
def lessIndex (events : List ArchivalNetworkEvent) (i j : Nat) : Except String Bool :=
  lessByIndex lessT events i j

/-- The assignments by which a classification is stored in the ledger. -/
def storeClassification (tk : TestKeys) (c : Classification) : TestKeys :=
  { tk with
    DNSFlags := c.DNSFlags
    DNSExperimentFailure := c.DNSExperimentFailure
    DNSConsistency := c.DNSConsistency
    HTTPExperimentFailure := c.HTTPExperimentFailure
    BlockingFlags := c.BlockingFlags
    NullNullFlags := c.NullNullFlags
    BodyLengthMatch := c.BodyLengthMatch
    HeadersMatch := c.HeadersMatch
    StatusCodeMatch := c.StatusCodeMatch
    TitleMatch := c.TitleMatch
    Blocking := c.Blocking
    Accessible := c.Accessible }

end TestKeys

/-- A call of `Finalize` as its caller sees it, statement by statement. The
method has no result value and no field of the ledger records that it ran.
First `tk.analysisToplevel(logger)` runs: the classifier, which lives outside
this file, returns a classification, which is stored, or it panics. Then
`sort.SliceStable` runs on `tk.NetworkEvents` with the closure of `Finalize`,
which indexes the slice at every comparison; a panic there ends the call. -/
def callFinalize (classifier : TestKeys → Except String Classification) (tk : TestKeys) :
    CallEnd :=
  match classifier tk with
  | Except.error msg => CallEnd.panics msg
  | Except.ok c =>
    match insertionSortIndex TestKeys.lessIndex (tk.storeClassification c).NetworkEvents with
    | Except.error msg => CallEnd.panics msg
    | Except.ok sorted =>
      CallEnd.returns { tk.storeClassification c with NetworkEvents := sorted }

/-! ## The ledger as a transition system -/

/-- One call of a ledger operation that returns, with its arguments. For
the three `With*` methods the argument `f` is what the callback has done to
the record behind the pointer when it returns; a callback that returns from a
nil pointer has changed nothing. A call that panics ends the program and is
not a step. -/
inductive Op where
  | AppendNetworkEvents (v : List ArchivalNetworkEvent)
  | AppendDNSLateReplies (v : List ArchivalDNSLookupResult)
  | AppendQueries (v : List ArchivalDNSLookupResult)
  | AppendRequests (v : List ArchivalHTTPRequestResult)
  | AppendTCPConnectResults (v : List ArchivalTCPConnectResult)
  | AppendTLSHandshakes (v : List ArchivalTLSOrQUICHandshakeResult)
  | SetControlRequest (v : Option ControlRequest)
  | SetControl (v : Option ControlResponse)
  | SetControlFailure (err : Option GoError)
  | SetFundamentalFailure (err : Option GoError)
  | WithTestKeysDoH (f : TestKeysDoH → TestKeysDoH)
  | WithTestKeysDo53 (f : TestKeysDo53 → TestKeysDo53)
  | WithDNSWhoami (f : DNSWhoamiInfo → DNSWhoamiInfo)
  | SetClientResolver (value : String)
  | AppendConnPriorityLogEntry (entry : ConnPriorityLogEntry)
  | setTestHelper (th : Option OOAPIService)

/-- The effect on the ledger of one call that returns. Each call holds the
mutex from its first statement to its last, so it is one step. By
`With_returns_is_step` below, every call of a `With*` method that returns is
the step of some `f`. -/
def step (deps : Deps) (tk : TestKeys) : Op → TestKeys
  | .AppendNetworkEvents v => tk.AppendNetworkEvents v
  | .AppendDNSLateReplies v => tk.AppendDNSLateReplies v
  | .AppendQueries v => tk.AppendQueries v
  | .AppendRequests v => tk.AppendRequests v
  | .AppendTCPConnectResults v => tk.AppendTCPConnectResults v
  | .AppendTLSHandshakes v => tk.AppendTLSHandshakes v
  | .SetControlRequest v => tk.SetControlRequest v
  | .SetControl v => tk.SetControl v
  | .SetControlFailure err => tk.SetControlFailure deps err
  | .SetFundamentalFailure err => tk.SetFundamentalFailure err
  | .WithTestKeysDoH f => { tk with DoH := tk.DoH.map f }
  | .WithTestKeysDo53 f => { tk with Do53 := tk.Do53.map f }
  | .WithDNSWhoami f => { tk with DNSWoami := tk.DNSWoami.map f }
  | .SetClientResolver value => tk.SetClientResolver value
  | .AppendConnPriorityLogEntry entry => tk.AppendConnPriorityLogEntry entry
  | .setTestHelper th => tk.setTestHelper th

/-- The ledger after a sequence of calls, in the order in which they acquired
the mutex. -/
def run (deps : Deps) (tk : TestKeys) (ops : List Op) : TestKeys :=
  ops.foldl (step deps) tk

/-! ## Goroutines and the mutex

Every method of `TestKeys` is `tk.mu.Lock()`, one statement that reads the
ledger and writes it, and `tk.mu.Unlock()`. The model below lets goroutines
take these moves one at a time in any order, a goroutine in `Lock` waiting
while the mutex is held, and keeps the read and the write of the statement
apart, so that nothing but the mutex keeps two calls from interleaving. -/

/-- Where a goroutine stands in its call: `Lock` has not returned yet; it
holds the mutex and has not read the ledger yet; it has read the ledger, as
`seen`, and has not written yet; it has written and has not called `Unlock`
yet; or the call has returned. -/
inductive Phase where
  | beforeLock
  | beforeRead
  | beforeWrite (seen : TestKeys)
  | beforeUnlock
  | returned

/-- A goroutine that makes one call, and where it stands in it. -/
structure Goroutine where
  op : Op
  phase : Phase

/-- The ledger, its mutex, the goroutines that call it, and a history of the
calls that have written, in the order in which they wrote. The history is not
part of the program; it only records what happened. -/
structure World where
  ledger : TestKeys
  locked : Bool
  goroutines : List Goroutine
  log : List Op

/-- Whether a phase is between `Lock` and `Unlock`. -/
def Phase.holds : Phase → Bool
  | Phase.beforeRead => true
  | Phase.beforeWrite _ => true
  | Phase.beforeUnlock => true
  | _ => false

/-- Whether the call has written. -/
def Phase.wrote : Phase → Bool
  | Phase.beforeUnlock => true
  | Phase.returned => true
  | _ => false

/-- The world after goroutine `i` has been given the chance to take its next
move. A goroutine in `Lock` takes the mutex when it is free and stays where
it is when it is held; a goroutine that has returned, or that does not
exist, changes nothing. -/
def World.move (deps : Deps) (w : World) (i : Nat) : World :=
  match w.goroutines[i]? with
  | none => w
  | some g =>
    match g.phase with
    | Phase.beforeLock =>
      if w.locked then w
      else
        { w with
          locked := true
          goroutines := w.goroutines.set i { g with phase := Phase.beforeRead } }
    | Phase.beforeRead =>
      { w with goroutines := w.goroutines.set i { g with phase := Phase.beforeWrite w.ledger } }
    | Phase.beforeWrite seen =>
      { w with
        ledger := step deps seen g.op
        log := w.log ++ [g.op]
        goroutines := w.goroutines.set i { g with phase := Phase.beforeUnlock } }
    | Phase.beforeUnlock =>
      { w with
        locked := false
        goroutines := w.goroutines.set i { g with phase := Phase.returned } }
    | Phase.returned => w

/-- The world in which one goroutine for each of the calls `ops` is about
to call `Lock` on the ledger `tk`. -/
def World.start (tk : TestKeys) (ops : List Op) : World :=
  { ledger := tk
    locked := false
    goroutines := ops.map (fun op => { op := op, phase := Phase.beforeLock })
    log := [] }

/-- The world after the goroutines have moved in the order of a schedule. -/
def World.exec (deps : Deps) (w : World) (schedule : List Nat) : World :=
  schedule.foldl (World.move deps) w

/-- Goroutine `i` of the list is between `Lock` and `Unlock`. -/
def holdsAt (gs : List Goroutine) (i : Nat) : Prop :=
  ∃ g, gs[i]? = some g ∧ g.phase.holds = true

/-- What holds of every world that the goroutines can reach from a ledger
`tk`: at most one goroutine is between `Lock` and `Unlock`, and then the
mutex is locked; what a goroutine has read and not yet written back is the
ledger as it stands; the ledger is the result of the calls of the history,
taken one after the other as steps; and the history holds the calls of the
goroutines that have written, each once. -/
structure World.Inv (deps : Deps) (tk : TestKeys) (w : World) : Prop where
  unique : ∀ i j, holdsAt w.goroutines i → holdsAt w.goroutines j → i = j
  locked : ∀ i, holdsAt w.goroutines i → w.locked = true
  seen : ∀ (i : Nat) (g : Goroutine) (s : TestKeys),
    w.goroutines[i]? = some g → g.phase = Phase.beforeWrite s → s = w.ledger
  serial : w.ledger = run deps tk w.log
  once : w.log.Perm ((w.goroutines.filter (fun g : Goroutine => g.phase.wrote)).map Goroutine.op)

/-- The six kinds of observation sequence that have an append operation. -/
inductive Kind where
  | networkEvents
  | dnsLateReplies
  | queries
  | requests
  | tcpConnect
  | tlsHandshakes
  deriving DecidableEq

/-- The record type of a kind of sequence. -/
@[reducible] def Kind.Record : Kind → Type
  | .networkEvents => ArchivalNetworkEvent
  | .dnsLateReplies => ArchivalDNSLookupResult
  | .queries => ArchivalDNSLookupResult
  | .requests => ArchivalHTTPRequestResult
  | .tcpConnect => ArchivalTCPConnectResult
  | .tlsHandshakes => ArchivalTLSOrQUICHandshakeResult

/-- The append call of a kind, with the records it passes. -/
def Kind.call : (k : Kind) → List k.Record → Op
  | .networkEvents => Op.AppendNetworkEvents
  | .dnsLateReplies => Op.AppendDNSLateReplies
  | .queries => Op.AppendQueries
  | .requests => Op.AppendRequests
  | .tcpConnect => Op.AppendTCPConnectResults
  | .tlsHandshakes => Op.AppendTLSHandshakes

/-- The sequence of the ledger that the append call of a kind writes. -/
def Kind.sequence : (k : Kind) → TestKeys → List k.Record
  | .networkEvents => TestKeys.NetworkEvents
  | .dnsLateReplies => TestKeys.DNSDuplicateResponses
  | .queries => TestKeys.Queries
  | .requests => TestKeys.Requests
  | .tcpConnect => TestKeys.TCPConnect
  | .tlsHandshakes => TestKeys.TLSHandshakes

/-- Stand-ins for the two outside functions, used to evaluate the ledger on
concrete inputs: the failure string is the message of the error, and the
classifier reports nothing. -/
def sampleDeps : Deps where
  NewFailure := fun err => err.map GoError.msg
  classify := fun _ =>
    { DNSFlags := 0, DNSExperimentFailure := none, DNSConsistency := "",
      HTTPExperimentFailure := none, BlockingFlags := 0, NullNullFlags := 0,
      BodyLengthMatch := none, HeadersMatch := none, StatusCodeMatch := none,
      TitleMatch := none, Blocking := none, Accessible := none }

/-- A network event with a given operation name and timestamp. -/
def sampleEvent (name : String) (t : ℚ) : ArchivalNetworkEvent :=
  { Operation := name, Address := "93.184.216.34:443", Failure := none, T := t }

/-- An HTTP result for a given URL. -/
def sampleRequest (url : String) : ArchivalHTTPRequestResult :=
  { URL := url, StatusCode := 200, Failure := none, T := 1 }

/-- Modelled from the spec: the function `tracex.NewFailure`, defined in
package `tracex`. An error value is surfaced as a human-readable string and a
failure that did not happen is absent: the nil error gives no string, and an
error gives the string that identifies it. -/
def NewFailure (err : Option GoError) : Option String :=
  err.map GoError.msg

/-- A control response with a given status code. -/
def sampleControl (status : Int) : ControlResponse :=
  { DNSAddrs := ["93.184.216.34"], HTTPStatusCode := status, HTTPBodyLength := 1256,
    HTTPTitle := "Example Domain" }

end WebConnectivityLTE

/-! # Storing the test keys of a measurement (`AddTestKeys`)

A shallow embedding of `Database.AddTestKeys` in
`internal/database/actions.go`. The test keys arrive as a Go `any`; the
method serialises them with `encoding/json` and looks for a boolean field
`IsAnomaly` with package `reflect`. A panic is the `error` side of `Except`.
-/

namespace Database

open WebConnectivityLTE (GoError)

/-- The kinds of `reflect.Kind` that the embedding tells apart. -/
inductive ReflectKind where
  | Invalid
  | Bool
  | Int
  | String
  | Struct
  | Ptr
  | Map
  | Interface
  deriving DecidableEq

/-- A Go value as package `reflect` sees it: the nil interface, a boolean, an
integer, a string, a struct, a pointer (nil or to a value), a map with string
keys, or a field of interface type with its dynamic value.

A struct whose type has no embedded field is `struct`, with its fields by
name. A struct whose type has embedded fields is `structEmbedding`: its own
fields by name, the embedded ones among them under their type names, and
`promoted`, what the search of `reflect` through the embedded structs finds
for a name that is not a field of its own: the promoted field; the zero
Value when there is none or the name is ambiguous; a panic when the way to
the promoted field leads through a nil embedded pointer. That search belongs
to `reflect` and is taken as given. -/
inductive GoValue where
  | nil
  | bool (b : Bool)
  | int (n : Int)
  | string (s : String)
  | struct (fields : List (String × GoValue))
  | structEmbedding (fields : List (String × GoValue))
      (promoted : String → Except String (Option GoValue))
  | nilPtr
  | ptr (target : GoValue)
  | map (entries : List (String × GoValue))
  | iface (dynamic : GoValue)

/-- A `reflect.Value`: the zero Value, or the Value of a Go value. -/
abbrev Value := Option GoValue

/-- The function `reflect.ValueOf`: the zero Value for the nil interface, and
the Value of the dynamic value otherwise. -/
def ValueOf (i : GoValue) : Value :=
  match i with
  | GoValue.nil => none
  | v => some v

/-- The method `reflect.Value.IsValid`: false exactly for the zero Value. -/
def Value.IsValid (v : Value) : Bool :=
  v.isSome

/-- The method `reflect.Value.Kind`: `Invalid` for the zero Value. -/
def Value.Kind (v : Value) : ReflectKind :=
  match v with
  | none => ReflectKind.Invalid
  | some GoValue.nil => ReflectKind.Invalid
  | some (GoValue.bool _) => ReflectKind.Bool
  | some (GoValue.int _) => ReflectKind.Int
  | some (GoValue.string _) => ReflectKind.String
  | some (GoValue.struct _) => ReflectKind.Struct
  | some (GoValue.structEmbedding _ _) => ReflectKind.Struct
  | some GoValue.nilPtr => ReflectKind.Ptr
  | some (GoValue.ptr _) => ReflectKind.Ptr
  | some (GoValue.map _) => ReflectKind.Map
  | some (GoValue.iface _) => ReflectKind.Interface

/-- The method `reflect.Value.Bool`, which `AddTestKeys` calls only on a Value
of kind `Bool`. -/
def Value.Bool (v : Value) : Bool :=
  match v with
  | some (GoValue.bool b) => b
  | _ => false

/-- The method `reflect.Kind.String`: the name of a kind. -/
def kindString (k : ReflectKind) : String :=
  match k with
  | ReflectKind.Invalid => "invalid"
  | ReflectKind.Bool => "bool"
  | ReflectKind.Int => "int"
  | ReflectKind.String => "string"
  | ReflectKind.Struct => "struct"
  | ReflectKind.Ptr => "ptr"
  | ReflectKind.Map => "map"
  | ReflectKind.Interface => "interface"

/-- The message of the `reflect.ValueError` with which a method of
`reflect.Value` panics when it is called on a Value of the wrong kind. -/
def ValueError (method : String) (k : ReflectKind) : String :=
  match k with
  | ReflectKind.Invalid => "reflect: call of " ++ method ++ " on zero Value"
  | _ => "reflect: call of " ++ method ++ " on " ++ kindString k ++ " Value"

/-- The method `reflect.Value.FieldByName`. On a Value of kind `Struct` it
gives the field of that name: a field of the struct's own when there is one,
else what the search through the embedded structs finds, which is the zero
Value when nothing is found and a panic when the way leads through a nil
embedded pointer. On a Value of any other kind, the zero Value included, it
panics. -/
def Value.FieldByName (v : Value) (name : String) : Except String Value :=
  match v with
  | some (GoValue.struct fields) => Except.ok (fields.lookup name)
  | some (GoValue.structEmbedding fields promoted) =>
    match fields.lookup name with
    | some field => Except.ok (some field)
    | none => promoted name
  | _ => Except.error (ValueError "reflect.Value.FieldByName" v.Kind)

/-- The type `sql.NullBool`, with its fields `Bool` and `Valid`. -/
structure NullBool where
  Valid : Bool
  Bool : Bool
  deriving DecidableEq

/-- Modelled from the spec: `model.DatabaseMeasurement`, declared in package
`model`, with the fields that `actions.go` assigns by name; `AddTestKeys`
reads `ID` and writes `TestKeys` and `IsAnomaly`. -/
structure DatabaseMeasurement where
  ID : Int
  TestName : String
  ResultID : Int
  IsFailed : Bool
  IsDone : Bool
  IsAnomaly : NullBool
  TestKeys : String
  deriving DecidableEq

/-- The functions outside the repository that `AddTestKeys` calls:
`json.Marshal`, which returns the serialisation or an error, and the update
of the row of the measurement in the session, which returns an error or nil. -/
structure Env where
  Marshal : GoValue → Except GoError String
  Update : DatabaseMeasurement → Option GoError

/-- The function `errors.Wrap` of `github.com/pkg/errors`: the message in
front of the message of the error. -/
def Wrap (err : GoError) (message : String) : GoError :=
  { msg := message ++ ": " ++ err.msg }

/-- The method `Database.AddTestKeys`. It returns the measurement as written
and the error returned, or it panics. When `json.Marshal` fails the error is
logged and `tkBytes` stays nil, so `string(tkBytes)` is the empty string. -/
def AddTestKeys (env : Env) (msmt : DatabaseMeasurement) (tk : GoValue) :
    Except String (DatabaseMeasurement × Option GoError) :=
  let tkBytes : String :=
    match env.Marshal tk with
    | Except.ok bytes => bytes
    | Except.error _ => ""
  match Value.FieldByName (ValueOf tk) "IsAnomaly" with
  | Except.error panic => Except.error panic
  | Except.ok isAnomalyValue =>
    let flags : Bool × Bool :=
      if isAnomalyValue.IsValid && isAnomalyValue.Kind == ReflectKind.Bool then
        (isAnomalyValue.Bool, true)
      else
        (false, false)
    let msmt1 : DatabaseMeasurement :=
      { msmt with TestKeys := tkBytes, IsAnomaly := { Bool := flags.1, Valid := flags.2 } }
    match env.Update msmt1 with
    | some err => Except.ok (msmt1, some (Wrap err "updating measurement"))
    | none => Except.ok (msmt1, none)

/-- Whether a test-keys value has a field named `IsAnomaly` of boolean kind,
of its own or promoted, and the value of that field. -/
def boolFieldIsAnomaly (tk : GoValue) : Option Bool :=
  match tk with
  | GoValue.struct fields =>
    match fields.lookup "IsAnomaly" with
    | some (GoValue.bool b) => some b
    | _ => none
  | GoValue.structEmbedding fields promoted =>
    match fields.lookup "IsAnomaly" with
    | some (GoValue.bool b) => some b
    | some _ => none
    | none =>
      match promoted "IsAnomaly" with
      | Except.ok (some (GoValue.bool b)) => some b
      | _ => none
  | _ => none

/-- Stand-ins for the outside functions of `AddTestKeys`, used to evaluate it
on concrete inputs: the serialisation only tells the kinds apart, and the
update succeeds. -/
def sampleEnv : Env where
  Marshal := fun tk =>
    match tk with
    | GoValue.nil => Except.ok "null"
    | GoValue.nilPtr => Except.ok "null"
    | GoValue.struct _ => Except.ok "\x7b...\x7d"
    | GoValue.structEmbedding _ _ => Except.ok "\x7b...\x7d"
    | GoValue.ptr _ => Except.ok "\x7b...\x7d"
    | GoValue.map _ => Except.ok "\x7b...\x7d"
    | _ => Except.ok "..."
  Update := fun _ => none

/-- A measurement row as `CreateMeasurement` makes it. -/
def sampleMeasurement : DatabaseMeasurement :=
  { ID := 7, TestName := "web_connectivity", ResultID := 1, IsFailed := false,
    IsDone := false, IsAnomaly := { Bool := false, Valid := false }, TestKeys := "" }

end Database

namespace WebConnectivityLTE

open scoped List

/-! ## Appending observations -/

/-- C1: for every ledger and every argument list `v`, `AppendRequests(v...)`
leaves `Requests` equal to `v` followed by the former `Requests`; starting from
an empty `Requests`, `AppendRequests(A)` and then `AppendRequests(B)` yield
exactly `[B, A]`. -/
theorem AppendRequests_prepends (tk : TestKeys) (v : List ArchivalHTTPRequestResult)
    (A B : ArchivalHTTPRequestResult) :
    (tk.AppendRequests v).Requests = v ++ tk.Requests ∧
      ((({ tk with Requests := [] } : TestKeys).AppendRequests [A]).AppendRequests
        [B]).Requests = [B, A] :=
  ⟨rfl, rfl⟩

/-- C2: each of `AppendNetworkEvents`, `AppendQueries`,
`AppendTCPConnectResults`, `AppendTLSHandshakes` and `AppendDNSLateReplies`
leaves its sequence equal to the former sequence followed by the records
passed, in the order in which they were passed. -/
theorem Append_appends_at_end (tk : TestKeys) (ne : List ArchivalNetworkEvent)
    (qs late : List ArchivalDNSLookupResult) (tcp : List ArchivalTCPConnectResult)
    (tls : List ArchivalTLSOrQUICHandshakeResult) :
    (tk.AppendNetworkEvents ne).NetworkEvents = tk.NetworkEvents ++ ne ∧
      (tk.AppendQueries qs).Queries = tk.Queries ++ qs ∧
      (tk.AppendTCPConnectResults tcp).TCPConnect = tk.TCPConnect ++ tcp ∧
      (tk.AppendTLSHandshakes tls).TLSHandshakes = tk.TLSHandshakes ++ tls ∧
      (tk.AppendDNSLateReplies late).DNSDuplicateResponses =
        tk.DNSDuplicateResponses ++ late :=
  ⟨rfl, rfl, rfl, rfl, rfl⟩

/-- One append call of a kind puts the records passed at one end of the
sequence of that kind: at the front for requests, at the back otherwise. -/
theorem Kind.sequence_step (deps : Deps) (k : Kind) (tk : TestKeys) (v : List k.Record) :
    k.sequence (step deps tk (k.call v)) = k.sequence tk ++ v ∨
      k.sequence (step deps tk (k.call v)) = v ++ k.sequence tk := by
  cases k
  case requests => exact Or.inr rfl
  all_goals exact Or.inl rfl

/-- After any sequence of append calls of one kind, the sequence of that kind
holds the records it held before and the records of all the calls. -/
theorem Kind.sequence_run_perm (deps : Deps) (k : Kind) (sched : List (List k.Record))
    (tk : TestKeys) :
    (k.sequence (run deps tk (sched.map k.call))).Perm (k.sequence tk ++ sched.flatten) := by
  induction sched generalizing tk with
  | nil => simp [run]
  | cons v rest ih =>
    have h := ih (step deps tk (k.call v))
    simp only [run, List.map_cons, List.foldl_cons, List.flatten_cons] at h ⊢
    refine h.trans ?_
    rcases Kind.sequence_step deps k tk v with e | e
    · rw [e, List.append_assoc]
    · rw [e, ← List.append_assoc]
      exact List.Perm.append_right _ List.perm_append_comm

/-- The total number of records passed by calls of `M` records each. -/
theorem length_flatten_of_uniform {α : Type} (M : Nat) (calls : List (List α))
    (h : ∀ c ∈ calls, c.length = M) : calls.flatten.length = calls.length * M := by
  induction calls with
  | nil => simp
  | cons c rest ih =>
    have hc : c.length = M := h c (List.mem_cons_self _ _)
    have hr := ih (fun d hd => h d (List.mem_cons_of_mem _ hd))
    simp only [List.flatten_cons, List.length_append, List.length_cons, hc, hr]
    ring

/-- C3: take `N` append calls of one kind, each passing `M` records, and let
them acquire the lock in any order `sched`. Starting from `NewTestKeys`, the
final sequence of that kind has length `N * M` and is a rearrangement of all
the records passed: each record occurs exactly as often as it was passed.
This holds for the five appending kinds and for the prepending requests. -/
theorem concurrent_appends_lose_nothing (deps : Deps) (k : Kind) (M : Nat)
    (calls sched : List (List k.Record)) (horder : sched.Perm calls)
    (hsize : ∀ c ∈ calls, c.length = M) :
    (k.sequence (run deps NewTestKeys (sched.map k.call))).length = calls.length * M ∧
      (k.sequence (run deps NewTestKeys (sched.map k.call))).Perm calls.flatten := by
  have hnew : k.sequence NewTestKeys = [] := by cases k <;> rfl
  have hperm : (k.sequence (run deps NewTestKeys (sched.map k.call))).Perm calls.flatten := by
    have h := Kind.sequence_run_perm deps k sched NewTestKeys
    rw [hnew, List.nil_append] at h
    exact h.trans horder.flatten
  exact ⟨by rw [hperm.length_eq, length_flatten_of_uniform M calls hsize], hperm⟩

/-- C3 at two concurrent `AppendRequests` calls of two records each, the
second caller acquiring the lock first. -/
theorem concurrent_appends_lose_nothing_witness :
    (Kind.requests.sequence (run sampleDeps NewTestKeys
        ([[sampleRequest "c", sampleRequest "d"],
          [sampleRequest "a", sampleRequest "b"]].map Kind.requests.call))).length = 2 * 2 ∧
      (Kind.requests.sequence (run sampleDeps NewTestKeys
        ([[sampleRequest "c", sampleRequest "d"],
          [sampleRequest "a", sampleRequest "b"]].map Kind.requests.call))).Perm
        [sampleRequest "a", sampleRequest "b", sampleRequest "c", sampleRequest "d"] :=
  concurrent_appends_lose_nothing sampleDeps Kind.requests 2
    [[sampleRequest "a", sampleRequest "b"], [sampleRequest "c", sampleRequest "d"]]
    [[sampleRequest "c", sampleRequest "d"], [sampleRequest "a", sampleRequest "b"]]
    (List.Perm.swap _ _ _) (by decide)

/-! ## The stable sort of `Finalize` -/

section Sorting

variable {α κ : Type} [LinearOrder κ]

/-- Sinking an element into a run neither adds nor drops an element. -/
theorem sinkLeft_perm (less : α → α → Bool) (x : α) (ys : List α) :
    (sinkLeft less x ys).Perm (x :: ys) := by
  induction ys with
  | nil => exact List.Perm.refl _
  | cons y ys ih =>
    by_cases h : less x y = true
    · simp only [sinkLeft, h, if_true]
      exact (List.Perm.cons y ih).trans (List.Perm.swap x y ys)
    · simp only [sinkLeft, h]
      exact List.Perm.refl _

/-- The run built by the outer loop holds the elements taken so far. -/
theorem foldl_sinkLeft_perm (less : α → α → Bool) (data run : List α) :
    (data.foldl (fun run x => sinkLeft less x run) run).Perm (data ++ run) := by
  induction data generalizing run with
  | nil => exact List.Perm.refl _
  | cons x rest ih =>
    simp only [List.foldl_cons, List.cons_append]
    refine (ih _).trans ?_
    exact (List.Perm.append_left rest (sinkLeft_perm less x run)).trans
      List.perm_middle

/-- The insertion sort rearranges its input. -/
theorem insertionSort_perm (less : α → α → Bool) (data : List α) :
    (insertionSort less data).Perm data := by
  unfold insertionSort
  refine (List.reverse_perm _).trans ?_
  simpa using foldl_sinkLeft_perm less data []

/-- Sinking an element into a run that descends by key (nearest neighbour
first) leaves a run that descends by key. -/
theorem sinkLeft_descending (key : α → κ) (x : α) (ys : List α)
    (h : ys.Pairwise (fun a b => key b ≤ key a)) :
    (sinkLeft (fun a b => decide (key a < key b)) x ys).Pairwise
      (fun a b => key b ≤ key a) := by
  induction ys with
  | nil => simp [sinkLeft]
  | cons y ys ih =>
    rw [List.pairwise_cons] at h
    by_cases hxy : key x < key y
    · simp only [sinkLeft, hxy, decide_True, if_true]
      rw [List.pairwise_cons]
      refine ⟨fun b hb => ?_, ih h.2⟩
      rcases List.mem_cons.mp ((sinkLeft_perm _ x ys).mem_iff.mp hb) with rfl | hb
      · exact le_of_lt hxy
      · exact h.1 b hb
    · simp only [sinkLeft, hxy, decide_False, Bool.false_eq_true, if_false]
      rw [List.pairwise_cons, List.pairwise_cons]
      refine ⟨fun b hb => ?_, h⟩
      rcases List.mem_cons.mp hb with rfl | hb
      · exact not_lt.mp hxy
      · exact le_trans (h.1 b hb) (not_lt.mp hxy)

/-- The run built by the outer loop descends by key. -/
theorem foldl_sinkLeft_descending (key : α → κ) (data run : List α)
    (h : run.Pairwise (fun a b => key b ≤ key a)) :
    (data.foldl (fun run x => sinkLeft (fun a b => decide (key a < key b)) x run)
      run).Pairwise (fun a b => key b ≤ key a) := by
  induction data generalizing run with
  | nil => exact h
  | cons x rest ih => exact ih _ (sinkLeft_descending key x run h)

/-- The insertion sort by a key yields a list that ascends by that key. -/
theorem insertionSort_ascending (key : α → κ) (data : List α) :
    (insertionSort (fun a b => decide (key a < key b)) data).Pairwise
      (fun a b => key a ≤ key b) := by
  unfold insertionSort
  rw [List.pairwise_reverse]
  exact foldl_sinkLeft_descending key data [] List.Pairwise.nil

/-- Sinking an element into a run puts it in front of the elements of the run
that have its key: among the elements of any one key, the run after sinking
is the element followed by the run before. -/
theorem filter_sinkLeft (key : α → κ) (t : κ) (x : α) (ys : List α) :
    (sinkLeft (fun a b => decide (key a < key b)) x ys).filter (fun a => decide (key a = t))
      = (x :: ys).filter (fun a => decide (key a = t)) := by
  induction ys with
  | nil => rfl
  | cons y ys ih =>
    by_cases hxy : key x < key y
    · simp only [sinkLeft, hxy, decide_True, if_true]
      rw [List.filter_cons, ih]
      by_cases hx : key x = t
      · have hy : ¬ key y = t := fun hy => absurd (hx.trans hy.symm) (ne_of_lt hxy)
        simp [List.filter_cons, hx, hy]
      · simp [List.filter_cons, hx]
    · simp only [sinkLeft, hxy, decide_False, Bool.false_eq_true, if_false]

/-- Among the elements of any one key, the run built by the outer loop is the
elements taken so far, latest first. -/
theorem filter_foldl_sinkLeft (key : α → κ) (t : κ) (data run : List α) :
    (data.foldl (fun run x => sinkLeft (fun a b => decide (key a < key b)) x run)
        run).filter (fun a => decide (key a = t))
      = (data.filter (fun a => decide (key a = t))).reverse
          ++ run.filter (fun a => decide (key a = t)) := by
  induction data generalizing run with
  | nil => simp
  | cons x rest ih =>
    rw [List.foldl_cons, ih, filter_sinkLeft]
    by_cases hx : key x = t <;> simp [List.filter_cons, hx]

/-- The insertion sort is stable: the elements of any one key come out in the
order in which they went in. -/
theorem filter_insertionSort (key : α → κ) (t : κ) (data : List α) :
    (insertionSort (fun a b => decide (key a < key b)) data).filter
        (fun a => decide (key a = t))
      = data.filter (fun a => decide (key a = t)) := by
  unfold insertionSort
  rw [List.filter_reverse, filter_foldl_sinkLeft]
  simp

/-- A list that ascends by key is determined by its elements of each key, in
their order: two such lists that agree key by key are equal. -/
theorem eq_of_ascending_of_filter_eq (key : α → κ) (l1 l2 : List α)
    (h1 : l1.Pairwise (fun a b => key a ≤ key b))
    (h2 : l2.Pairwise (fun a b => key a ≤ key b))
    (h : ∀ t, l1.filter (fun a => decide (key a = t))
      = l2.filter (fun a => decide (key a = t))) : l1 = l2 := by
  induction l1 generalizing l2 with
  | nil =>
    cases l2 with
    | nil => rfl
    | cons b l2 =>
      have hb := h (key b)
      simp [List.filter_cons] at hb
  | cons a l1 ih =>
    cases l2 with
    | nil =>
      have ha := h (key a)
      simp [List.filter_cons] at ha
    | cons b l2 =>
      rw [List.pairwise_cons] at h1 h2
      have hmemb : b ∈ a :: l1 := by
        have hb : b ∈ (b :: l2).filter (fun c => decide (key c = key b)) := by
          simp [List.filter_cons]
        rw [← h (key b)] at hb
        exact List.mem_of_mem_filter hb
      have hmema : a ∈ b :: l2 := by
        have ha : a ∈ (a :: l1).filter (fun c => decide (key c = key a)) := by
          simp [List.filter_cons]
        rw [h (key a)] at ha
        exact List.mem_of_mem_filter ha
      have hab : key a ≤ key b := by
        rcases List.mem_cons.mp hmemb with e | hb
        · rw [e]
        · exact h1.1 b hb
      have hba : key b ≤ key a := by
        rcases List.mem_cons.mp hmema with e | ha
        · rw [e]
        · exact h2.1 a ha
      have hkey : key b = key a := le_antisymm hba hab
      have hhead := h (key a)
      simp only [List.filter_cons, hkey, decide_True, if_true] at hhead
      have hEq : a = b := (List.cons.inj hhead).1
      subst hEq
      have htail : l1 = l2 := by
        refine ih l2 h1.2 h2.2 (fun t => ?_)
        have ht := h t
        by_cases hat : key a = t
        · simp only [List.filter_cons, hat, decide_True, if_true] at ht
          exact (List.cons.inj ht).2
        · simpa [List.filter_cons, hat] using ht
      rw [htail]

/-- The contract of a stable sort has one solution: a list that ascends by key
and holds, for every key, the elements of the input with that key in their
input order, is the list that the insertion sort returns. -/
theorem insertionSort_unique (key : α → κ) (data out : List α)
    (hsorted : out.Pairwise (fun a b => key a ≤ key b))
    (hstable : ∀ t, out.filter (fun a => decide (key a = t))
      = data.filter (fun a => decide (key a = t))) :
    out = insertionSort (fun a b => decide (key a < key b)) data :=
  eq_of_ascending_of_filter_eq key out _ hsorted (insertionSort_ascending key data)
    (fun t => (hstable t).trans (filter_insertionSort key t data).symm)

end Sorting

/-- The sort that `Finalize` runs is the insertion sort by the key `T`. -/
theorem Finalize_NetworkEvents (deps : Deps) (tk : TestKeys) :
    (tk.Finalize deps).NetworkEvents
      = insertionSort (fun a b => decide (ArchivalNetworkEvent.T a < ArchivalNetworkEvent.T b))
          (tk.analysisToplevel deps).NetworkEvents :=
  rfl

/-- The classification step hands the network events on as it found them. -/
theorem analysisToplevel_NetworkEvents (deps : Deps) (tk : TestKeys) :
    (tk.analysisToplevel deps).NetworkEvents = tk.NetworkEvents :=
  rfl

/-- C4: after `Finalize` the network events are in order of non-decreasing
timestamp `T`, and they are a rearrangement of the sequence that the sorting
step received: the same events, each as often as before. -/
theorem Finalize_sorts_NetworkEvents (deps : Deps) (tk : TestKeys) :
    (tk.Finalize deps).NetworkEvents.Pairwise (fun a b => a.T ≤ b.T) ∧
      (tk.Finalize deps).NetworkEvents.Perm (tk.analysisToplevel deps).NetworkEvents := by
  rw [Finalize_NetworkEvents]
  exact ⟨insertionSort_ascending ArchivalNetworkEvent.T _, insertionSort_perm _ _⟩

/-- C5: two network events with equal timestamps, the first before the second
in `NetworkEvents` when `Finalize` is called, are still in that order in
`NetworkEvents` after `Finalize`. -/
theorem Finalize_keeps_order_of_equal_T (deps : Deps) (tk : TestKeys)
    (e1 e2 : ArchivalNetworkEvent) (hT : e1.T = e2.T)
    (hbefore : [e1, e2] <+ tk.NetworkEvents) :
    [e1, e2] <+ (tk.Finalize deps).NetworkEvents := by
  have hstable := filter_insertionSort ArchivalNetworkEvent.T e2.T tk.NetworkEvents
  have hsub := hbefore.filter (fun a => decide (ArchivalNetworkEvent.T a = e2.T))
  have hpair : [e1, e2].filter (fun a => decide (ArchivalNetworkEvent.T a = e2.T))
      = [e1, e2] := by
    simp [List.filter_cons, hT]
  rw [hpair, ← hstable] at hsub
  rw [Finalize_NetworkEvents, analysisToplevel_NetworkEvents]
  exact hsub.trans (List.filter_sublist _)

/-- C5 at a ledger holding events with timestamps 3, 1, 3, 2: the two events
of timestamp 3 keep their order. -/
theorem Finalize_keeps_order_of_equal_T_witness :
    [sampleEvent "connect" 3, sampleEvent "write" 3] <+
      ((NewTestKeys.AppendNetworkEvents
        [sampleEvent "connect" 3, sampleEvent "resolve" 1, sampleEvent "write" 3,
          sampleEvent "read" 2]).Finalize sampleDeps).NetworkEvents :=
  Finalize_keeps_order_of_equal_T sampleDeps
    (NewTestKeys.AppendNetworkEvents
      [sampleEvent "connect" 3, sampleEvent "resolve" 1, sampleEvent "write" 3,
        sampleEvent "read" 2])
    (sampleEvent "connect" 3) (sampleEvent "write" 3) rfl (by decide)

/-! ## Calling `Finalize` twice -/

section IndexSort

variable {α : Type}

/-- The element before a pair in the middle of a slice, by index. -/
theorem getElem?_middle_left (A R : List α) (x y : α) :
    (A ++ y :: x :: R)[A.length]? = some y := by
  induction A with
  | nil => rfl
  | cons a A ih => simpa using ih

/-- The element after it, by index. -/
theorem getElem?_middle_right (A R : List α) (x y : α) :
    (A ++ y :: x :: R)[A.length + 1]? = some x := by
  induction A with
  | nil => simp
  | cons a A ih => simpa using ih

/-- Writing the two elements of the pair at each other's index exchanges
them. -/
theorem set_set_middle (A R : List α) (x y : α) :
    ((A ++ y :: x :: R).set (A.length + 1) y).set A.length x = A ++ x :: y :: R := by
  induction A with
  | nil => rfl
  | cons a A ih => simp [ih]

/-- The swap of two neighbours inside the slice returns, the two
exchanged. -/
theorem swapIndex_middle (A R : List α) (x y : α) :
    swapIndex (A ++ y :: x :: R) (A.length + 1) A.length = Except.ok (A ++ x :: y :: R) := by
  unfold swapIndex
  rw [getElem?_middle_left, getElem?_middle_right]
  simp only [set_set_middle]

/-- The comparison of two neighbours inside the slice returns, with the
comparison of the two elements. -/
theorem lessByIndex_middle (lt : α → α → Bool) (A R : List α) (x y : α) :
    lessByIndex lt (A ++ y :: x :: R) (A.length + 1) A.length = Except.ok (lt x y) := by
  unfold lessByIndex
  rw [getElem?_middle_right]
  simp only [getElem?_middle_left]

/-- The inner loop on indices never leaves the slice: it returns, and what it
returns is what `sinkLeft` computes on the run to the left of the element. -/
theorem sinkLeftIndex_eq (lt : α → α → Bool) (L R : List α) (x : α) :
    sinkLeftIndex (lessByIndex lt) L.length (L.reverse ++ x :: R)
      = Except.ok ((sinkLeft lt x L).reverse ++ R) := by
  induction L generalizing R with
  | nil => rfl
  | cons y L ih =>
    have hdata : (y :: L).reverse ++ x :: R = L.reverse ++ y :: x :: R := by simp
    have hlen : L.reverse.length = L.length := List.length_reverse L
    rw [hdata, List.length_cons]
    unfold sinkLeftIndex
    have hless := lessByIndex_middle lt L.reverse R x y
    have hswap := swapIndex_middle L.reverse R x y
    rw [hlen] at hless hswap
    rw [hless]
    by_cases hxy : lt x y = true
    · simp only [hxy, hswap, sinkLeft, if_true]
      rw [ih (y :: R)]
      simp
    · have hf : lt x y = false := by simpa using hxy
      simp only [hf, sinkLeft, Bool.false_eq_true, if_false]
      simp

/-- Sinking an element into a run makes the run one longer. -/
theorem length_sinkLeft (lt : α → α → Bool) (x : α) (L : List α) :
    (sinkLeft lt x L).length = L.length + 1 := by
  induction L with
  | nil => rfl
  | cons y L ih =>
    by_cases hxy : lt x y = true
    · simp [sinkLeft, hxy, ih]
    · simp [sinkLeft, hxy]

/-- The outer loop on indices returns, with what the fold of `sinkLeft`
computes. -/
theorem insertionSortIndex_loop_eq (lt : α → α → Bool) (rest run : List α) :
    insertionSortIndex.loop (lessByIndex lt) rest.length run.length (run.reverse ++ rest)
      = Except.ok ((rest.foldl (fun r x => sinkLeft lt x r) run).reverse) := by
  induction rest generalizing run with
  | nil => simp [insertionSortIndex.loop]
  | cons x rest ih =>
    rw [List.length_cons]
    unfold insertionSortIndex.loop
    rw [sinkLeftIndex_eq]
    simp only [List.foldl_cons]
    rw [← length_sinkLeft lt x run]
    exact ih (sinkLeft lt x run)

/-- The insertion sort on indices, with a comparison that looks its indices
up in the slice, does not panic: on every slice it returns the list that the
insertion sort on elements computes. -/
theorem insertionSortIndex_eq (lt : α → α → Bool) (data : List α) :
    insertionSortIndex (lessByIndex lt) data = Except.ok (insertionSort lt data) := by
  cases data with
  | nil => rfl
  | cons x rest =>
    have h := insertionSortIndex_loop_eq lt rest [x]
    simpa [insertionSortIndex, insertionSort, sinkLeft] using h

end IndexSort

/-- Sorting a sorted list of events again returns it. -/
theorem insertionSort_by_T_twice (l : List ArchivalNetworkEvent) :
    insertionSort (fun a b => decide (ArchivalNetworkEvent.T a < ArchivalNetworkEvent.T b))
        (insertionSort
          (fun a b => decide (ArchivalNetworkEvent.T a < ArchivalNetworkEvent.T b)) l)
      = insertionSort
          (fun a b => decide (ArchivalNetworkEvent.T a < ArchivalNetworkEvent.T b)) l :=
  (insertionSort_unique ArchivalNetworkEvent.T _ _
    (insertionSort_ascending ArchivalNetworkEvent.T l) (fun _ => rfl)).symm

/-- How a call of `Finalize` ends: in the panic of the classifier when the
classifier panics, and otherwise by returning, the classification stored and
the network events sorted. The sort itself never panics. -/
theorem callFinalize_eq (classifier : TestKeys → Except String Classification)
    (tk : TestKeys) :
    callFinalize classifier tk
      = match classifier tk with
        | Except.error msg => CallEnd.panics msg
        | Except.ok c =>
          CallEnd.returns
            { tk.storeClassification c with
              NetworkEvents := SliceStable tk.NetworkEvents TestKeys.lessT } := by
  unfold callFinalize
  cases classifier tk with
  | error msg => rfl
  | ok c =>
    have hsort : insertionSortIndex TestKeys.lessIndex (tk.storeClassification c).NetworkEvents
        = Except.ok (insertionSort TestKeys.lessT tk.NetworkEvents) :=
      insertionSortIndex_eq TestKeys.lessT tk.NetworkEvents
    simp only [hsort]
    rfl

/-- With a classifier that returns, a call of `Finalize` returns the ledger
that `Finalize` computes. -/
theorem callFinalize_of_classify (deps : Deps) (tk : TestKeys) :
    callFinalize (fun t => Except.ok (deps.classify t)) tk
      = CallEnd.returns (tk.Finalize deps) := by
  rw [callFinalize_eq]
  rfl

/-- C6 as stated fails: on a ledger on which `Finalize` has completed, with
a classifier that returns, a second call of `Finalize` signals no error: it
returns, and it leaves the ledger as the first call left it. -/
theorem second_Finalize_does_not_panic :
    callFinalize (fun t => Except.ok (sampleDeps.classify t))
        ((NewTestKeys.AppendNetworkEvents
          [sampleEvent "connect" 3, sampleEvent "resolve" 1,
            sampleEvent "write" 3]).Finalize sampleDeps)
      = CallEnd.returns
        ((NewTestKeys.AppendNetworkEvents
          [sampleEvent "connect" 3, sampleEvent "resolve" 1,
            sampleEvent "write" 3]).Finalize sampleDeps) := by
  rfl

/-- C6, amended: calling `Finalize` a second time is not an error condition
of `Finalize`, which keeps no record of having run. On every ledger on which
`Finalize` has completed, a second call completes normally whenever the
classifier returns: it leaves the network events and the other observation
sequences, the control reference and the fundamental failure as the first
call left them. Whatever the classifier, a call panics exactly when the
classifier panics; the sort never does. -/
theorem second_Finalize_returns (deps : Deps)
    (classifier : TestKeys → Except String Classification) (tk : TestKeys) :
    (∃ again,
        callFinalize (fun t => Except.ok (deps.classify t)) (tk.Finalize deps)
          = CallEnd.returns again ∧
        again.NetworkEvents = (tk.Finalize deps).NetworkEvents ∧
        again.Queries = tk.Queries ∧ again.Requests = tk.Requests ∧
        again.TCPConnect = tk.TCPConnect ∧ again.TLSHandshakes = tk.TLSHandshakes ∧
        again.DNSDuplicateResponses = tk.DNSDuplicateResponses ∧
        again.ConnPriorityLog = tk.ConnPriorityLog ∧ again.Control = tk.Control ∧
        again.fundamentalFailure = tk.fundamentalFailure) ∧
      (∀ msg, callFinalize classifier tk = CallEnd.panics msg ↔
        classifier tk = Except.error msg) := by
  refine ⟨⟨(tk.Finalize deps).Finalize deps, callFinalize_of_classify deps _, ?_, rfl, rfl,
    rfl, rfl, rfl, rfl, rfl, rfl⟩, fun msg => ?_⟩
  · rw [Finalize_NetworkEvents deps (tk.Finalize deps), analysisToplevel_NetworkEvents,
      Finalize_NetworkEvents deps tk]
    exact insertionSort_by_T_twice _
  · rw [callFinalize_eq]
    cases classifier tk with
    | error m =>
      exact ⟨fun h => by rw [CallEnd.panics.inj h], fun h => by rw [Except.error.inj h]⟩
    | ok c => exact ⟨fun h => CallEnd.noConfusion h, fun h => Except.noConfusion h⟩

/-! ## The fundamental failure -/

/-- C7 as stated fails: after reporting the error "first" and then the error
"second", the slot does not hold "first". -/
theorem SetFundamentalFailure_first_is_overwritten :
    ((NewTestKeys.SetFundamentalFailure (some { msg := "first" })).SetFundamentalFailure
        (some { msg := "second" })).fundamentalFailure
      ≠ some { msg := "first" } := by
  decide

/-- C7, amended: the slot records the last error reported: after
`SetFundamentalFailure(e1)` and then `SetFundamentalFailure(e2)` it holds
`e2`. -/
theorem SetFundamentalFailure_keeps_last (tk : TestKeys) (e1 e2 : GoError) :
    ((tk.SetFundamentalFailure (some e1)).SetFundamentalFailure
        (some e2)).fundamentalFailure = some e2 :=
  rfl

/-- C8 as stated fails: on a ledger whose slot holds an error,
`SetFundamentalFailure(nil)` leaves the slot empty. -/
theorem SetFundamentalFailure_nil_clears :
    (NewTestKeys.SetFundamentalFailure (some { msg := "bad URL" })).fundamentalFailure.isSome
        = true ∧
      (step sampleDeps (NewTestKeys.SetFundamentalFailure (some { msg := "bad URL" }))
        (Op.SetFundamentalFailure none)).fundamentalFailure = none :=
  ⟨rfl, rfl⟩

/-- What one call does to the slot: `SetFundamentalFailure(err)` stores `err`,
and every other call leaves the slot as it was. -/
theorem fundamentalFailure_step (deps : Deps) (tk : TestKeys) (op : Op) :
    (step deps tk op).fundamentalFailure
      = match op with
        | Op.SetFundamentalFailure err => err
        | _ => tk.fundamentalFailure := by
  cases op <;> rfl

/-- C8, amended: when the slot holds an error, it still holds one after every
ledger operation other than `SetFundamentalFailure(nil)`: after any
`Append*`, `With*` or other `Set*` call, and after `SetFundamentalFailure`
with a non-nil error. -/
theorem fundamentalFailure_stays_present (deps : Deps) (tk : TestKeys) (op : Op)
    (hset : tk.fundamentalFailure.isSome = true)
    (hop : op ≠ Op.SetFundamentalFailure none) :
    (step deps tk op).fundamentalFailure.isSome = true := by
  rw [fundamentalFailure_step]
  cases op with
  | SetFundamentalFailure err =>
    cases err with
    | none => exact absurd rfl hop
    | some e => rfl
  | _ => exact hset

/-- C8, amended, at a ledger holding an error, for a further
`SetFundamentalFailure` with another error. -/
theorem fundamentalFailure_stays_present_witness :
    (step sampleDeps (NewTestKeys.SetFundamentalFailure (some { msg := "bad URL" }))
      (Op.SetFundamentalFailure (some { msg := "worse" }))).fundamentalFailure.isSome = true :=
  fundamentalFailure_stays_present sampleDeps
    (NewTestKeys.SetFundamentalFailure (some { msg := "bad URL" }))
    (Op.SetFundamentalFailure (some { msg := "worse" })) rfl
    (fun h => Option.noConfusion (Op.SetFundamentalFailure.inj h))

/-! ## The new ledger -/

/-- C9: in the ledger that `NewTestKeys` returns every observation sequence is
empty, those nested in `DoH`, `Do53` and `DNSWoami` included, every optional
field is absent, and the three flag fields are zero. -/
theorem NewTestKeys_is_empty :
    (NewTestKeys.NetworkEvents = [] ∧ NewTestKeys.Queries = [] ∧ NewTestKeys.Requests = [] ∧
        NewTestKeys.TCPConnect = [] ∧ NewTestKeys.TLSHandshakes = [] ∧
        NewTestKeys.DNSDuplicateResponses = [] ∧ NewTestKeys.ConnPriorityLog = []) ∧
      (NewTestKeys.DoH = some
          { NetworkEvents := [], Queries := [], Requests := [], TCPConnect := [],
            TLSHandshakes := [] } ∧
        NewTestKeys.Do53 = some { NetworkEvents := [], Queries := [] } ∧
        NewTestKeys.DNSWoami = some { SystemV4 := [], UDPv4 := [] }) ∧
      (NewTestKeys.Control = none ∧ NewTestKeys.ControlRequest = none ∧
        NewTestKeys.ControlFailure = none ∧ NewTestKeys.fundamentalFailure = none ∧
        NewTestKeys.testHelper = none ∧ NewTestKeys.Retries = none ∧
        NewTestKeys.SOCKSProxy = none ∧ NewTestKeys.DNSExperimentFailure = none ∧
        NewTestKeys.HTTPExperimentFailure = none ∧ NewTestKeys.BodyLengthMatch = none ∧
        NewTestKeys.HeadersMatch = none ∧ NewTestKeys.StatusCodeMatch = none ∧
        NewTestKeys.TitleMatch = none ∧ NewTestKeys.Blocking = none ∧
        NewTestKeys.Accessible = none) ∧
      (NewTestKeys.DNSFlags = 0 ∧ NewTestKeys.BlockingFlags = 0 ∧
        NewTestKeys.NullNullFlags = 0) := by
  refine ⟨⟨?_, ?_, ?_, ?_, ?_, ?_, ?_⟩, ⟨?_, ?_, ?_⟩,
    ⟨?_, ?_, ?_, ?_, ?_, ?_, ?_, ?_, ?_, ?_, ?_, ?_, ?_, ?_, ?_⟩, ⟨?_, ?_, ?_⟩⟩ <;> rfl

/-! ## The connection-priority log -/

/-- What one call does to the log: `AppendConnPriorityLogEntry(e)` puts `e` at
its end, and every other call leaves the log as it was. -/
theorem ConnPriorityLog_step (deps : Deps) (tk : TestKeys) (op : Op) :
    (step deps tk op).ConnPriorityLog
      = match op with
        | Op.AppendConnPriorityLogEntry e => tk.ConnPriorityLog ++ [e]
        | _ => tk.ConnPriorityLog := by
  cases op <;> rfl

/-- C10: the connection-priority log is append-only. For every ledger and
every ledger operation the log before the call is an initial segment of the
log after it, so no entry is removed, moved or replaced; the same holds over
any sequence of operations; and `AppendConnPriorityLogEntry(e)` extends the log
by exactly the entry `e`, at the end. -/
theorem ConnPriorityLog_append_only (deps : Deps) (tk : TestKeys) (op : Op)
    (ops : List Op) (e : ConnPriorityLogEntry) :
    tk.ConnPriorityLog <+: (step deps tk op).ConnPriorityLog ∧
      tk.ConnPriorityLog <+: (run deps tk ops).ConnPriorityLog ∧
      (step deps tk (Op.AppendConnPriorityLogEntry e)).ConnPriorityLog
        = tk.ConnPriorityLog ++ [e] := by
  have hstep : ∀ (s : TestKeys) (o : Op),
      ∃ t, s.ConnPriorityLog ++ t = (step deps s o).ConnPriorityLog := by
    intro s o
    rw [ConnPriorityLog_step]
    cases o with
    | AppendConnPriorityLogEntry e => exact ⟨[e], rfl⟩
    | _ => exact ⟨[], List.append_nil _⟩
  have hrun : ∀ (os : List Op) (s : TestKeys),
      ∃ t, s.ConnPriorityLog ++ t = (run deps s os).ConnPriorityLog := by
    intro os
    induction os with
    | nil => exact fun s => ⟨[], List.append_nil _⟩
    | cons o rest ih =>
      intro s
      obtain ⟨t1, h1⟩ := hstep s o
      obtain ⟨t2, h2⟩ := ih (step deps s o)
      refine ⟨t1 ++ t2, ?_⟩
      rw [← List.append_assoc, h1]
      exact h2
  exact ⟨hstep tk op, hrun ops tk, rfl⟩

/-! ## The control reference -/

/-- C11 as stated fails: after `SetControl` with one response, a further
`SetControl` with a different response does not leave `Control` equal to the
first. -/
theorem SetControl_replaces_Control :
    ((NewTestKeys.SetControl (some (sampleControl 200))).SetControl
        (some (sampleControl 403))).Control ≠ some (sampleControl 200) := by
  decide

/-- What one call does to `Control`: `SetControl(v)` stores `v`, and every
other call leaves the field as it was. -/
theorem Control_step (deps : Deps) (tk : TestKeys) (op : Op) :
    (step deps tk op).Control
      = match op with
        | Op.SetControl v => v
        | _ => tk.Control := by
  cases op <;> rfl

/-- C11, amended: once `SetControl` has set `Control` to `c`, every sequence
of subsequent ledger operations other than `SetControl` leaves `Control`
equal to `c`; a further `SetControl(v)` leaves `Control` equal to `v`. -/
theorem Control_kept_until_next_SetControl (deps : Deps) (tk : TestKeys)
    (c v : Option ControlResponse) (ops : List Op)
    (hops : ∀ o ∈ ops, ∀ w, o ≠ Op.SetControl w) :
    (run deps (tk.SetControl c) ops).Control = c ∧
      (step deps (run deps (tk.SetControl c) ops) (Op.SetControl v)).Control = v := by
  have hrun : ∀ (os : List Op) (s : TestKeys), (∀ o ∈ os, ∀ w, o ≠ Op.SetControl w) →
      (run deps s os).Control = s.Control := by
    intro os
    induction os with
    | nil => exact fun s _ => rfl
    | cons o rest ih =>
      intro s h
      have hrest := ih (step deps s o) (fun o1 h1 => h o1 (List.mem_cons_of_mem _ h1))
      have hstep : (step deps s o).Control = s.Control := by
        rw [Control_step]
        cases o with
        | SetControl w => exact absurd rfl (h _ (List.mem_cons_self _ _) w)
        | _ => rfl
      exact hrest.trans hstep
  exact ⟨hrun ops _ hops, rfl⟩

/-- C11, amended, at a ledger on which the control response with status 200
was set, for an append, a control failure and a transform that follow. -/
theorem Control_kept_until_next_SetControl_witness :
    (run sampleDeps (NewTestKeys.SetControl (some (sampleControl 200)))
        [Op.AppendQueries [], Op.SetControlFailure none, Op.WithTestKeysDoH id]).Control
        = some (sampleControl 200) ∧
      (step sampleDeps
        (run sampleDeps (NewTestKeys.SetControl (some (sampleControl 200)))
          [Op.AppendQueries [], Op.SetControlFailure none, Op.WithTestKeysDoH id])
        (Op.SetControl (some (sampleControl 403)))).Control = some (sampleControl 403) :=
  Control_kept_until_next_SetControl sampleDeps NewTestKeys (some (sampleControl 200))
    (some (sampleControl 403))
    [Op.AppendQueries [], Op.SetControlFailure none, Op.WithTestKeysDoH id]
    (by
      intro o ho w
      simp only [List.mem_cons, List.mem_singleton, List.not_mem_nil, or_false] at ho
      rcases ho with rfl | rfl | rfl <;> exact fun h => Op.noConfusion h)

/-! ## Transforms of the nested structures -/

/-- Every call of a `With*` method that returns is a step of the transition
system: the ledger it leaves is the one that `step` gives for some `f`. -/
theorem With_returns_is_step (deps : Deps) (tk after : TestKeys) :
    (∀ cb, tk.WithTestKeysDoH cb = CallEnd.returns after →
        ∃ f, step deps tk (Op.WithTestKeysDoH f) = after) ∧
      (∀ cb, tk.WithTestKeysDo53 cb = CallEnd.returns after →
        ∃ f, step deps tk (Op.WithTestKeysDo53 f) = after) ∧
      (∀ cb, tk.WithDNSWhoami cb = CallEnd.returns after →
        ∃ f, step deps tk (Op.WithDNSWhoami f) = after) := by
  refine ⟨fun cb h => ?_, fun cb h => ?_, fun cb h => ?_⟩
  · cases tk with
    | mk a1 a2 a3 a4 a5 a6 doh a8 a9 a10 a11 a12 a13 a14 a15 a16 a17 a18 a19 a20 a21 a22 a23 a24
        a25 a26 a27 a28 a29 a30 a31 =>
      cases doh with
      | none =>
        cases hn : cb.onNil with
        | error msg => simp [TestKeys.WithTestKeysDoH, hn] at h
        | ok u =>
          simp only [TestKeys.WithTestKeysDoH, hn, CallEnd.returns.injEq] at h
          exact ⟨id, h⟩
      | some d =>
        cases hr : cb.onRecord d with
        | error msg => simp [TestKeys.WithTestKeysDoH, hr] at h
        | ok d1 =>
          simp only [TestKeys.WithTestKeysDoH, hr, CallEnd.returns.injEq] at h
          exact ⟨fun _ => d1, h⟩
  · cases tk with
    | mk a1 a2 a3 a4 a5 a6 a7 do53 a9 a10 a11 a12 a13 a14 a15 a16 a17 a18 a19 a20 a21 a22 a23 a24
        a25 a26 a27 a28 a29 a30 a31 =>
      cases do53 with
      | none =>
        cases hn : cb.onNil with
        | error msg => simp [TestKeys.WithTestKeysDo53, hn] at h
        | ok u =>
          simp only [TestKeys.WithTestKeysDo53, hn, CallEnd.returns.injEq] at h
          exact ⟨id, h⟩
      | some d =>
        cases hr : cb.onRecord d with
        | error msg => simp [TestKeys.WithTestKeysDo53, hr] at h
        | ok d1 =>
          simp only [TestKeys.WithTestKeysDo53, hr, CallEnd.returns.injEq] at h
          exact ⟨fun _ => d1, h⟩
  · cases tk with
    | mk a1 a2 a3 a4 a5 whoami a7 a8 a9 a10 a11 a12 a13 a14 a15 a16 a17 a18 a19 a20 a21 a22 a23
        a24 a25 a26 a27 a28 a29 a30 a31 =>
      cases whoami with
      | none =>
        cases hn : cb.onNil with
        | error msg => simp [TestKeys.WithDNSWhoami, hn] at h
        | ok u =>
          simp only [TestKeys.WithDNSWhoami, hn, CallEnd.returns.injEq] at h
          exact ⟨id, h⟩
      | some d =>
        cases hr : cb.onRecord d with
        | error msg => simp [TestKeys.WithDNSWhoami, hr] at h
        | ok d1 =>
          simp only [TestKeys.WithDNSWhoami, hr, CallEnd.returns.injEq] at h
          exact ⟨fun _ => d1, h⟩

/-- Conversely, the step of `f` is the call whose callback writes `f` of the
record behind a test for nil. -/
theorem step_is_With_call (deps : Deps) (tk : TestKeys) (fDoH : TestKeysDoH → TestKeysDoH)
    (fDo53 : TestKeysDo53 → TestKeysDo53) (fWhoami : DNSWhoamiInfo → DNSWhoamiInfo) :
    tk.WithTestKeysDoH (Callback.guarded fDoH)
        = CallEnd.returns (step deps tk (Op.WithTestKeysDoH fDoH)) ∧
      tk.WithTestKeysDo53 (Callback.guarded fDo53)
        = CallEnd.returns (step deps tk (Op.WithTestKeysDo53 fDo53)) ∧
      tk.WithDNSWhoami (Callback.guarded fWhoami)
        = CallEnd.returns (step deps tk (Op.WithDNSWhoami fWhoami)) := by
  cases tk with
  | mk a1 a2 a3 a4 a5 whoami doh do53 a9 a10 a11 a12 a13 a14 a15 a16 a17 a18 a19 a20 a21 a22
      a23 a24 a25 a26 a27 a28 a29 a30 a31 =>
    refine ⟨?_, ?_, ?_⟩
    · cases doh <;> rfl
    · cases do53 <;> rfl
    · cases whoami <;> rfl

/-! ## Calls under the mutex are steps -/

/-- Replacing the goroutine at an index leaves the others where they are. -/
theorem holdsAt_set_ne (gs : List Goroutine) (i k : Nat) (g1 : Goroutine) (hk : k ≠ i) :
    holdsAt (gs.set i g1) k ↔ holdsAt gs k := by
  unfold holdsAt
  rw [List.getElem?_set_ne (Ne.symm hk)]

/-- The goroutine at an index after it has been replaced. -/
theorem getElem?_set_of_some (gs : List Goroutine) (i : Nat) (g g1 : Goroutine)
    (hg : gs[i]? = some g) : (gs.set i g1)[i]? = some g1 := by
  have hlt : i < gs.length := by
    by_contra hge
    rw [List.getElem?_eq_none (Nat.le_of_not_lt hge)] at hg
    exact Option.noConfusion hg
  exact List.getElem?_set_self hlt

/-- Replacing a goroutine by one of the same call that has written just as
much leaves the calls that have written as they were. -/
theorem wrote_set_keep (gs : List Goroutine) (i : Nat) (g g1 : Goroutine)
    (hg : gs[i]? = some g) (hw : g1.phase.wrote = g.phase.wrote) (hop : g1.op = g.op) :
    ((gs.set i g1).filter (fun g : Goroutine => g.phase.wrote)).map Goroutine.op
      = (gs.filter (fun g : Goroutine => g.phase.wrote)).map Goroutine.op := by
  induction gs generalizing i with
  | nil => rfl
  | cons a gs ih =>
    cases i with
    | zero =>
      have ha : a = g := by simpa using hg
      subst ha
      by_cases hwa : a.phase.wrote = true
      · simp [List.filter_cons, hw, hwa, hop]
      · simp [List.filter_cons, hw, hwa]
    | succ i =>
      have hi : gs[i]? = some g := by simpa using hg
      have h := ih i hi
      by_cases hwa : a.phase.wrote = true
      · simp [List.filter_cons, hwa, h]
      · simp [List.filter_cons, hwa, h]

/-- Replacing a goroutine that has not written by one of the same call that
has written adds that call, once, to the calls that have written. -/
theorem wrote_set_gain (gs : List Goroutine) (i : Nat) (g g1 : Goroutine)
    (hg : gs[i]? = some g) (hw : g.phase.wrote = false) (hw1 : g1.phase.wrote = true) :
    (((gs.set i g1).filter (fun g : Goroutine => g.phase.wrote)).map Goroutine.op).Perm
      (g1.op :: (gs.filter (fun g : Goroutine => g.phase.wrote)).map Goroutine.op) := by
  induction gs generalizing i with
  | nil => simp at hg
  | cons a gs ih =>
    cases i with
    | zero =>
      have ha : a = g := by simpa using hg
      subst ha
      simp [List.filter_cons, hw, hw1]
    | succ i =>
      have hi : gs[i]? = some g := by simpa using hg
      have h := ih i hi
      by_cases hwa : a.phase.wrote = true
      · simp only [List.set_cons_succ, List.filter_cons, hwa, if_true, List.map_cons]
        exact (List.Perm.cons a.op h).trans (List.Perm.swap _ _ _)
      · simp only [List.set_cons_succ, List.filter_cons, hwa]
        exact h

/-- The world in which every goroutine is about to call `Lock` has the
properties of `World.Inv`. -/
theorem World.Inv_start (deps : Deps) (tk : TestKeys) (ops : List Op) :
    World.Inv deps tk (World.start tk ops) := by
  have hphase : ∀ (i : Nat) (g : Goroutine),
      (ops.map (fun op => ({ op := op, phase := Phase.beforeLock } : Goroutine)))[i]? = some g →
      g.phase = Phase.beforeLock := by
    intro i g hg
    rw [List.getElem?_map] at hg
    cases hop : ops[i]? with
    | none => rw [hop] at hg; exact Option.noConfusion hg
    | some op =>
      rw [hop] at hg
      rw [← Option.some.inj hg]
  have hnone : ∀ i, ¬ holdsAt (World.start tk ops).goroutines i := by
    rintro i ⟨g, hg, hh⟩
    rw [hphase i g hg] at hh
    exact Bool.noConfusion hh
  refine ⟨fun i j hi _ => absurd hi (hnone i), fun i hi => absurd hi (hnone i), ?_, rfl, ?_⟩
  · intro i g s hg hp
    rw [hphase i g hg] at hp
    exact Phase.noConfusion hp
  · show ([] : List Op).Perm _
    have hfilter : (World.start tk ops).goroutines.filter (fun g : Goroutine => g.phase.wrote) = [] := by
      rw [List.filter_eq_nil_iff]
      intro g hmem
      obtain ⟨i, hi⟩ := List.getElem?_of_mem hmem
      rw [hphase i g hi]
      simp [Phase.wrote]
    rw [hfilter]
    exact List.Perm.refl _

/-- A move of a goroutine keeps the properties of `World.Inv`. -/
theorem World.Inv_move (deps : Deps) (tk : TestKeys) (w : World) (i : Nat)
    (h : World.Inv deps tk w) : World.Inv deps tk (World.move deps w i) := by
  unfold World.move
  cases hg : w.goroutines[i]? with
  | none => exact h
  | some g =>
    have hself : ∀ g1 : Goroutine, (w.goroutines.set i g1)[i]? = some g1 :=
      fun g1 => getElem?_set_of_some w.goroutines i g g1 hg
    have hother : ∀ (g1 : Goroutine) (k : Nat), k ≠ i →
        (w.goroutines.set i g1)[k]? = w.goroutines[k]? :=
      fun g1 k hk => List.getElem?_set_ne (Ne.symm hk)
    dsimp only
    cases hp : g.phase with
    | beforeLock =>
      by_cases hl : w.locked = true
      · simp only [hl, if_true]
        exact h
      · have hfree : w.locked = false := by simpa using hl
        simp only [hfree, Bool.false_eq_true, if_false]
        have hnone : ∀ k, ¬ holdsAt w.goroutines k := fun k hk => hl (h.locked k hk)
        have honly : ∀ k, holdsAt (w.goroutines.set i { g with phase := Phase.beforeRead }) k →
            k = i := by
          intro k hk
          by_contra hne
          exact hnone k ((holdsAt_set_ne _ i k _ hne).mp hk)
        refine ⟨fun a b ha hb => (honly a ha).trans (honly b hb).symm, fun _ _ => rfl, ?_,
          h.serial, ?_⟩
        · intro k g1 s hk hs
          by_cases hki : k = i
          · subst hki
            rw [hself] at hk
            rw [← Option.some.inj hk] at hs
            exact Phase.noConfusion hs
          · rw [hother _ k hki] at hk
            exact h.seen k g1 s hk hs
        · show w.log.Perm _
          rw [wrote_set_keep w.goroutines i g { g with phase := Phase.beforeRead } hg
          (by rw [hp]; rfl) rfl]
          exact h.once
    | beforeRead =>
      simp only
      have hold : holdsAt w.goroutines i := ⟨g, hg, by rw [hp]; rfl⟩
      have hback : ∀ k,
          holdsAt (w.goroutines.set i { g with phase := Phase.beforeWrite w.ledger }) k →
          holdsAt w.goroutines k := by
        intro k hk
        by_cases hki : k = i
        · rw [hki]; exact hold
        · exact (holdsAt_set_ne _ i k _ hki).mp hk
      refine ⟨fun a b ha hb => h.unique a b (hback a ha) (hback b hb),
        fun k hk => h.locked k (hback k hk), ?_, h.serial, ?_⟩
      · intro k g1 s hk hs
        by_cases hki : k = i
        · subst hki
          rw [hself] at hk
          rw [← Option.some.inj hk] at hs
          exact (Phase.beforeWrite.inj hs).symm
        · rw [hother _ k hki] at hk
          exact h.seen k g1 s hk hs
      · show w.log.Perm _
        rw [wrote_set_keep w.goroutines i g { g with phase := Phase.beforeWrite w.ledger } hg
          (by rw [hp]; rfl) rfl]
        exact h.once
    | beforeWrite seen =>
      simp only
      have hold : holdsAt w.goroutines i := ⟨g, hg, by rw [hp]; rfl⟩
      have hback : ∀ k, holdsAt (w.goroutines.set i { g with phase := Phase.beforeUnlock }) k →
          holdsAt w.goroutines k := by
        intro k hk
        by_cases hki : k = i
        · rw [hki]; exact hold
        · exact (holdsAt_set_ne _ i k _ hki).mp hk
      have hseen : seen = w.ledger := h.seen i g seen hg hp
      refine ⟨fun a b ha hb => h.unique a b (hback a ha) (hback b hb),
        fun k hk => h.locked k (hback k hk), ?_, ?_, ?_⟩
      · intro k g1 s hk hs
        by_cases hki : k = i
        · subst hki
          rw [hself] at hk
          rw [← Option.some.inj hk] at hs
          exact Phase.noConfusion hs
        · rw [hother _ k hki] at hk
          exact absurd (h.unique k i ⟨g1, hk, by rw [hs]; rfl⟩ hold) hki
      · show step deps seen g.op = run deps tk (w.log ++ [g.op])
        rw [hseen, h.serial]
        simp [run, List.foldl_append]
      · show (w.log ++ [g.op]).Perm _
        refine (List.perm_append_comm.trans ?_).trans
          (wrote_set_gain w.goroutines i g { g with phase := Phase.beforeUnlock } hg
            (by rw [hp]; rfl) rfl).symm
        exact List.Perm.cons _ h.once
    | beforeUnlock =>
      simp only
      have hold : holdsAt w.goroutines i := ⟨g, hg, by rw [hp]; rfl⟩
      have hnone : ∀ k, ¬ holdsAt (w.goroutines.set i { g with phase := Phase.returned }) k := by
        intro k hk
        by_cases hki : k = i
        · subst hki
          obtain ⟨g1, hk1, hh⟩ := hk
          rw [hself] at hk1
          rw [← Option.some.inj hk1] at hh
          exact Bool.noConfusion hh
        · exact hki (h.unique k i ((holdsAt_set_ne _ i k _ hki).mp hk) hold)
      refine ⟨fun a _ ha _ => absurd ha (hnone a), fun k hk => absurd hk (hnone k), ?_,
        h.serial, ?_⟩
      · intro k g1 s hk hs
        by_cases hki : k = i
        · subst hki
          rw [hself] at hk
          rw [← Option.some.inj hk] at hs
          exact Phase.noConfusion hs
        · rw [hother _ k hki] at hk
          exact h.seen k g1 s hk hs
      · show w.log.Perm _
        rw [wrote_set_keep w.goroutines i g { g with phase := Phase.returned } hg
          (by rw [hp]; rfl) rfl]
        exact h.once
    | returned => exact h

/-- Every world that the goroutines reach from the start, whatever the order
of their moves, has the properties of `World.Inv`. -/
theorem World.Inv_exec (deps : Deps) (tk : TestKeys) (ops : List Op) (schedule : List Nat) :
    World.Inv deps tk (World.exec deps (World.start tk ops) schedule) := by
  have hgen : ∀ (sched : List Nat) (w : World), World.Inv deps tk w →
      World.Inv deps tk (World.exec deps w sched) := by
    intro sched
    induction sched with
    | nil => exact fun w h => h
    | cons i rest ih => exact fun w h => ih _ (World.Inv_move deps tk w i h)
  exact hgen schedule _ (World.Inv_start deps tk ops)

/-- While a goroutine is between `Lock` and `Unlock`, a move of any other
goroutine changes nothing: the others wait in `Lock` or have returned. -/
theorem World.move_of_other (deps : Deps) (tk : TestKeys) (w : World) (i k : Nat)
    (h : World.Inv deps tk w) (hi : holdsAt w.goroutines i) (hk : k ≠ i) :
    World.move deps w k = w := by
  unfold World.move
  cases hg : w.goroutines[k]? with
  | none => rfl
  | some g =>
    dsimp only
    cases hp : g.phase with
    | beforeLock => simp only [h.locked i hi, if_true]
    | beforeRead => exact absurd (h.unique k i ⟨g, hg, by rw [hp]; rfl⟩ hi) hk
    | beforeWrite seen => exact absurd (h.unique k i ⟨g, hg, by rw [hp]; rfl⟩ hi) hk
    | beforeUnlock => exact absurd (h.unique k i ⟨g, hg, by rw [hp]; rfl⟩ hi) hk
    | returned => rfl

/-- The write of a call is one step on the ledger as it stands when the
write is made: nothing has come between its read and its write. -/
theorem World.write_is_step (deps : Deps) (tk : TestKeys) (w : World) (i : Nat)
    (g : Goroutine) (seen : TestKeys) (h : World.Inv deps tk w)
    (hg : w.goroutines[i]? = some g) (hp : g.phase = Phase.beforeWrite seen) :
    (World.move deps w i).ledger = step deps w.ledger g.op := by
  have hseen : seen = w.ledger := h.seen i g seen hg hp
  unfold World.move
  rw [hg]
  dsimp only
  rw [hp, hseen]

/-- C12 as stated fails: on a ledger whose `DoH` is nil, a call of
`WithTestKeysDoH` with a callback that writes through its pointer leaves no
ledger behind; the callback is handed the nil pointer and the call panics. -/
theorem With_on_nil_structure_panics :
    ({ NewTestKeys with DoH := none } : TestKeys).WithTestKeysDoH
        (Callback.update (fun doh =>
          { doh with Requests := sampleRequest "https://dns.google/dns-query" :: doh.Requests }))
      = CallEnd.panics "runtime error: invalid memory address or nil pointer dereference" :=
  rfl

/-- C12, amended: on every ledger whose `DoH`, `Do53` or `DNSWoami` structure
is present, `WithTestKeysDoH(f)`, `WithTestKeysDo53(f)` and `WithDNSWhoami(f)`
each apply `f` once to that structure and return: afterwards the structure is
`f` of its former value and every other field, the other two nested
structures included, is as it was. This holds whether the callback writes
through its pointer directly or behind a test for nil. The call is a single
atomic step: however the moves of the goroutines that call the ledger
interleave, the ledger is the result of the calls that have written, each
once and each as one step, one after the other. -/
theorem With_applies_transform_once (deps : Deps) (tk : TestKeys) (doh : TestKeysDoH)
    (do53 : TestKeysDo53) (whoami : DNSWhoamiInfo) (fDoH : TestKeysDoH → TestKeysDoH)
    (fDo53 : TestKeysDo53 → TestKeysDo53) (fWhoami : DNSWhoamiInfo → DNSWhoamiInfo)
    (ops : List Op) (schedule : List Nat) :
    (({ tk with DoH := some doh } : TestKeys).WithTestKeysDoH (Callback.update fDoH)
          = CallEnd.returns { tk with DoH := some (fDoH doh) } ∧
        ({ tk with DoH := some doh } : TestKeys).WithTestKeysDoH (Callback.guarded fDoH)
          = CallEnd.returns { tk with DoH := some (fDoH doh) }) ∧
      (({ tk with Do53 := some do53 } : TestKeys).WithTestKeysDo53 (Callback.update fDo53)
          = CallEnd.returns { tk with Do53 := some (fDo53 do53) } ∧
        ({ tk with Do53 := some do53 } : TestKeys).WithTestKeysDo53 (Callback.guarded fDo53)
          = CallEnd.returns { tk with Do53 := some (fDo53 do53) }) ∧
      (({ tk with DNSWoami := some whoami } : TestKeys).WithDNSWhoami (Callback.update fWhoami)
          = CallEnd.returns { tk with DNSWoami := some (fWhoami whoami) } ∧
        ({ tk with DNSWoami := some whoami } : TestKeys).WithDNSWhoami
            (Callback.guarded fWhoami)
          = CallEnd.returns { tk with DNSWoami := some (fWhoami whoami) }) ∧
      ((World.exec deps (World.start tk ops) schedule).ledger
          = run deps tk (World.exec deps (World.start tk ops) schedule).log ∧
        (World.exec deps (World.start tk ops) schedule).log.Perm
          (((World.exec deps (World.start tk ops) schedule).goroutines.filter
            (fun g : Goroutine => g.phase.wrote)).map Goroutine.op)) :=
  ⟨⟨rfl, rfl⟩, ⟨rfl, rfl⟩, ⟨rfl, rfl⟩,
    (World.Inv_exec deps tk ops schedule).serial, (World.Inv_exec deps tk ops schedule).once⟩

/-! ## What each operation leaves alone -/

/-- C13: every append and set operation changes only the field it names:
putting the former value of that field back gives the former ledger. Each
`Set` operation leaves its field equal to the value passed: `SetClientResolver`,
`SetControlRequest`, `SetControl` and `SetFundamentalFailure` store their
argument, and `SetControlFailure(err)` stores `tracex.NewFailure(err)`, which
is the error passed, as a string, with `NewFailure` as the spec has it. -/
theorem operations_change_one_field (deps : Deps) (tk : TestKeys)
    (ne : List ArchivalNetworkEvent) (qs late : List ArchivalDNSLookupResult)
    (reqs : List ArchivalHTTPRequestResult) (tcp : List ArchivalTCPConnectResult)
    (tls : List ArchivalTLSOrQUICHandshakeResult) (entry : ConnPriorityLogEntry)
    (resolver : String) (creq : Option ControlRequest) (c : Option ControlResponse)
    (err : Option GoError) :
    ({ tk.AppendNetworkEvents ne with NetworkEvents := tk.NetworkEvents } = tk ∧
        { tk.AppendQueries qs with Queries := tk.Queries } = tk ∧
        { tk.AppendDNSLateReplies late with
            DNSDuplicateResponses := tk.DNSDuplicateResponses } = tk ∧
        { tk.AppendRequests reqs with Requests := tk.Requests } = tk ∧
        { tk.AppendTCPConnectResults tcp with TCPConnect := tk.TCPConnect } = tk ∧
        { tk.AppendTLSHandshakes tls with TLSHandshakes := tk.TLSHandshakes } = tk ∧
        { tk.AppendConnPriorityLogEntry entry with
            ConnPriorityLog := tk.ConnPriorityLog } = tk) ∧
      ({ tk.SetClientResolver resolver with ClientResolver := tk.ClientResolver } = tk ∧
        { tk.SetControlRequest creq with ControlRequest := tk.ControlRequest } = tk ∧
        { tk.SetControl c with Control := tk.Control } = tk ∧
        { tk.SetControlFailure deps err with ControlFailure := tk.ControlFailure } = tk ∧
        { tk.SetFundamentalFailure err with
            fundamentalFailure := tk.fundamentalFailure } = tk) ∧
      ((tk.SetClientResolver resolver).ClientResolver = resolver ∧
        (tk.SetControlRequest creq).ControlRequest = creq ∧
        (tk.SetControl c).Control = c ∧
        (tk.SetFundamentalFailure err).fundamentalFailure = err ∧
        (tk.SetControlFailure deps err).ControlFailure = deps.NewFailure err ∧
        (tk.SetControlFailure { deps with NewFailure := NewFailure } err).ControlFailure
          = err.map GoError.msg) :=
  ⟨⟨rfl, rfl, rfl, rfl, rfl, rfl, rfl⟩, ⟨rfl, rfl, rfl, rfl, rfl⟩,
    ⟨rfl, rfl, rfl, rfl, rfl, rfl⟩⟩

/-! ## Sorting twice -/

/-- C15: the sorting step of `Finalize` is idempotent: the stable sort by
timestamp, applied to its own output, returns that output, so a second
`Finalize` leaves the network events in the order in which the first left
them. -/
theorem SliceStable_by_T_idempotent (deps : Deps) (tk : TestKeys)
    (events : List ArchivalNetworkEvent) :
    SliceStable (SliceStable events TestKeys.lessT) TestKeys.lessT
        = SliceStable events TestKeys.lessT ∧
      ((tk.Finalize deps).Finalize deps).NetworkEvents = (tk.Finalize deps).NetworkEvents := by
  have hsort : ∀ l : List ArchivalNetworkEvent,
      insertionSort (fun a b => decide (ArchivalNetworkEvent.T a < ArchivalNetworkEvent.T b))
          (insertionSort
            (fun a b => decide (ArchivalNetworkEvent.T a < ArchivalNetworkEvent.T b)) l)
        = insertionSort
            (fun a b => decide (ArchivalNetworkEvent.T a < ArchivalNetworkEvent.T b)) l :=
    fun l => (insertionSort_unique ArchivalNetworkEvent.T _ _
      (insertionSort_ascending ArchivalNetworkEvent.T l) (fun _ => rfl)).symm
  refine ⟨hsort events, ?_⟩
  rw [Finalize_NetworkEvents deps (tk.Finalize deps), analysisToplevel_NetworkEvents,
    Finalize_NetworkEvents deps tk]
  exact hsort _

/-! ## The nested structures stay in place -/

/-- What one call does to the three nested structures: a transform maps the
structure it names, and every other call leaves all three as they were. -/
theorem nested_step (deps : Deps) (tk : TestKeys) (op : Op) :
    (step deps tk op).DoH
        = (match op with
          | Op.WithTestKeysDoH f => tk.DoH.map f
          | _ => tk.DoH) ∧
      (step deps tk op).Do53
        = (match op with
          | Op.WithTestKeysDo53 f => tk.Do53.map f
          | _ => tk.Do53) ∧
      (step deps tk op).DNSWoami
        = (match op with
          | Op.WithDNSWhoami f => tk.DNSWoami.map f
          | _ => tk.DNSWoami) := by
  cases op <;> exact ⟨rfl, rfl, rfl⟩

/-- One call keeps the three nested structures present. -/
theorem nested_present_step (deps : Deps) (tk : TestKeys) (op : Op)
    (h : tk.DoH.isSome = true ∧ tk.Do53.isSome = true ∧ tk.DNSWoami.isSome = true) :
    (step deps tk op).DoH.isSome = true ∧ (step deps tk op).Do53.isSome = true ∧
      (step deps tk op).DNSWoami.isSome = true := by
  obtain ⟨h1, h2, h3⟩ := nested_step deps tk op
  rw [h1, h2, h3]
  cases op <;> simpa using h

/-- C16: in every ledger reached from `NewTestKeys` by a sequence of ledger
operations, of `Append*` and `Set*` calls in particular, the nested `DoH`,
`Do53` and `DNSWoami` structures are present, so a transform never receives
an absent structure; and an operation other than the transform of a
structure leaves that structure as it was. -/
theorem nested_structures_stay_present (deps : Deps) (ops : List Op) (tk : TestKeys)
    (op : Op) :
    ((run deps NewTestKeys ops).DoH.isSome = true ∧
        (run deps NewTestKeys ops).Do53.isSome = true ∧
        (run deps NewTestKeys ops).DNSWoami.isSome = true) ∧
      ((step deps tk op).DoH
          = (match op with
            | Op.WithTestKeysDoH f => tk.DoH.map f
            | _ => tk.DoH) ∧
        (step deps tk op).Do53
          = (match op with
            | Op.WithTestKeysDo53 f => tk.Do53.map f
            | _ => tk.Do53) ∧
        (step deps tk op).DNSWoami
          = (match op with
            | Op.WithDNSWhoami f => tk.DNSWoami.map f
            | _ => tk.DNSWoami)) := by
  have hrun : ∀ (os : List Op) (s : TestKeys),
      (s.DoH.isSome = true ∧ s.Do53.isSome = true ∧ s.DNSWoami.isSome = true) →
      ((run deps s os).DoH.isSome = true ∧ (run deps s os).Do53.isSome = true ∧
        (run deps s os).DNSWoami.isSome = true) := by
    intro os
    induction os with
    | nil => exact fun s h => h
    | cons o rest ih => exact fun s h => ih (step deps s o) (nested_present_step deps s o h)
  exact ⟨hrun ops NewTestKeys ⟨rfl, rfl, rfl⟩, nested_step deps tk op⟩

end WebConnectivityLTE

namespace Database

/-! ## `AddTestKeys` -/

/-- The test that `AddTestKeys` makes on the Value of the field picks out the
Values of kind `Bool`. -/
theorem isAnomaly_flags (v : Value) :
    (if v.IsValid && v.Kind == ReflectKind.Bool then (v.Bool, true) else (false, false))
      = (match v with
        | some (GoValue.bool b) => (b, true)
        | _ => (false, false)) := by
  rcases v with _ | v
  · rfl
  · cases v <;> rfl

/-- On a test-keys value that is a struct without embedded fields,
`AddTestKeys` returns; the measurement it leaves has a valid `IsAnomaly` with
the value of the field when the struct has a field `IsAnomaly` of boolean
kind, and a null `IsAnomaly` otherwise; its `TestKeys` is the serialisation,
or the empty string when there is none. -/
theorem AddTestKeys_of_struct (env : Env) (msmt : DatabaseMeasurement)
    (fields : List (String × GoValue)) :
    ∃ after err, AddTestKeys env msmt (GoValue.struct fields) = Except.ok (after, err) ∧
      after.IsAnomaly
        = (match boolFieldIsAnomaly (GoValue.struct fields) with
          | some b => { Valid := true, Bool := b }
          | none => { Valid := false, Bool := false }) ∧
      after.TestKeys
        = (match env.Marshal (GoValue.struct fields) with
          | Except.ok bytes => bytes
          | Except.error _ => "") := by
  unfold AddTestKeys
  simp only [ValueOf, Value.FieldByName, isAnomaly_flags, boolFieldIsAnomaly]
  rcases hl : List.lookup "IsAnomaly" fields with _ | v
  · cases hu : env.Update _ <;> exact ⟨_, _, rfl, rfl, rfl⟩
  · cases v <;> cases hu : env.Update _ <;> exact ⟨_, _, rfl, rfl, rfl⟩

/-- On a test-keys value that is a struct with embedded fields, `AddTestKeys`
panics when `IsAnomaly` is not a field of the struct's own and the search
through the embedded structs panics; otherwise it returns, and the
measurement it leaves is as for a struct without embedded fields, a promoted
field `IsAnomaly` of boolean kind counting as a field. -/
theorem AddTestKeys_of_structEmbedding (env : Env) (msmt : DatabaseMeasurement)
    (fields : List (String × GoValue))
    (promoted : String → Except String (Option GoValue)) :
    (∃ msg, fields.lookup "IsAnomaly" = none ∧ promoted "IsAnomaly" = Except.error msg ∧
        AddTestKeys env msmt (GoValue.structEmbedding fields promoted) = Except.error msg) ∨
      (∃ after err,
        AddTestKeys env msmt (GoValue.structEmbedding fields promoted)
          = Except.ok (after, err) ∧
        after.IsAnomaly
          = (match boolFieldIsAnomaly (GoValue.structEmbedding fields promoted) with
            | some b => { Valid := true, Bool := b }
            | none => { Valid := false, Bool := false }) ∧
        after.TestKeys
          = (match env.Marshal (GoValue.structEmbedding fields promoted) with
            | Except.ok bytes => bytes
            | Except.error _ => "")) := by
  rcases hl : List.lookup "IsAnomaly" fields with _ | v
  · rcases hp : promoted "IsAnomaly" with msg | found
    · refine Or.inl ⟨msg, rfl, rfl, ?_⟩
      simp only [AddTestKeys, ValueOf, Value.FieldByName, hl, hp]
    · refine Or.inr ?_
      simp only [AddTestKeys, ValueOf, Value.FieldByName, isAnomaly_flags, boolFieldIsAnomaly,
        hl, hp]
      rcases found with _ | v
      · cases hu : env.Update _ <;> exact ⟨_, _, rfl, rfl, rfl⟩
      · cases v <;> cases hu : env.Update _ <;> exact ⟨_, _, rfl, rfl, rfl⟩
  · refine Or.inr ?_
    simp only [AddTestKeys, ValueOf, Value.FieldByName, isAnomaly_flags, boolFieldIsAnomaly, hl]
    cases v <;> cases hu : env.Update _ <;> exact ⟨_, _, rfl, rfl, rfl⟩

/-- On a test-keys value that is not a struct, `AddTestKeys` panics in
`reflect.Value.FieldByName`, before it writes anything. -/
theorem AddTestKeys_panics_of_not_struct (env : Env) (msmt : DatabaseMeasurement)
    (tk : GoValue) (hkind : (ValueOf tk).Kind ≠ ReflectKind.Struct) :
    AddTestKeys env msmt tk
      = Except.error (ValueError "reflect.Value.FieldByName" (ValueOf tk).Kind) := by
  cases tk with
  | struct fields => exact absurd rfl hkind
  | structEmbedding fields promoted => exact absurd rfl hkind
  | _ => rfl

/-- C14 fails on the code: for test keys that are a map with an entry
`IsAnomaly`, a pointer to a struct with a boolean field `IsAnomaly`, or nil,
`AddTestKeys` sets no `IsAnomaly`, valid or null: it panics. -/
theorem AddTestKeys_panics_on_map_pointer_nil :
    AddTestKeys sampleEnv sampleMeasurement (GoValue.map [("IsAnomaly", GoValue.bool true)])
        = Except.error "reflect: call of reflect.Value.FieldByName on map Value" ∧
      AddTestKeys sampleEnv sampleMeasurement
          (GoValue.ptr (GoValue.struct [("IsAnomaly", GoValue.bool true)]))
        = Except.error "reflect: call of reflect.Value.FieldByName on ptr Value" ∧
      AddTestKeys sampleEnv sampleMeasurement GoValue.nil
        = Except.error "reflect: call of reflect.Value.FieldByName on zero Value" :=
  ⟨rfl, rfl, rfl⟩

end Database
